import Mathlib

/-!
# min_array.c : element-wise minimum of two arrays under three work distributions

Shallow embedding of `src/min_array.c`.

* The macros `ARRAY_SIZE`, `BLOCK_SIZE` and the global `nb_threads` are the three fields
  of `Params`; the shipped values are `shipped T`.
* The arrays `A`, `B`, `C` are maps from indices to elements.  The elements are the
  doubles written by `init_arrays`, which are exact integers, so only their order is used:
  the element type is any linearly ordered type, and `init_arrays` instantiates it at `Int`.
* Every store `C[i] = ...` is recorded, together with the id of the storing thread, in
  `Mem.writes`; every successful or failing claim of `thread_farming` is recorded in
  `FState.claims`.  These two lists are observation only, no step reads them.
* `thread_cyclic` and `thread_block` are run to completion one thread after the other, in
  an arbitrary order of the thread ids.  `thread_farming` is a small-step machine: one
  step is the critical section, or the exit test, or one iteration of the `for` loop;
  a schedule is the list of thread ids that take the successive steps.
* Integers are unbounded.  `intRange` states when the `int` expressions evaluated by
  `thread_block` and `thread_farming` stay within the range of `int`
  (`thread_cyclic` counts in `long`), which the shipped constants do up to 999746 threads.
-/

namespace MinArray

/-- The macros `ARRAY_SIZE`, `BLOCK_SIZE` and the global `nb_threads`. -/
structure Params where
  ARRAY_SIZE : Nat
  BLOCK_SIZE : Nat
  nb_threads : Nat
deriving DecidableEq

/-- The constants of the source file, for a thread count given on the command line. -/
def shipped (T : Nat) : Params := ⟨100000000, 2048, T⟩

/-- The output array `C` and the record of the stores made into it: the pair
`(id, i)` is the store `C[i] = ...` of thread `id`; the newest store is first. -/
structure Mem (V : Type) where
  C : Nat → V
  writes : List (Nat × Nat)

/-- The expression `(A[i] < B[i]) ? A[i] : B[i]`, on the two elements. -/
def minElem {V : Type} [LinearOrder V] (a b : V) : V :=
  if a < b then a else b

/-- The store `C[i] = v` made by thread `id`. -/
def Mem.store {V : Type} (m : Mem V) (id i : Nat) (v : V) : Mem V :=
  ⟨Function.update m.C i v, (id, i) :: m.writes⟩

/-- The arrays `A` and `B` as `init_arrays` fills them: `A[i] = i`, `B[i] = ARRAY_SIZE - i`. -/
def init_arrays (p : Params) : (Nat → Int) × (Nat → Int) :=
  (fun i => (i : Int), fun i => (p.ARRAY_SIZE : Int) - (i : Int))

/-- The loop of `thread_cyclic`, `for (i = ...; i < ARRAY_SIZE; i += nb_threads)`, entered
with the loop variable equal to `i`; `none` when the fuel runs out. -/
def cyclicLoop {V : Type} [LinearOrder V] (p : Params) (A B : Nat → V) (id : Nat) :
    Nat → Nat → Mem V → Option (Mem V)
  | 0, _, _ => none
  | fuel + 1, i, m =>
    if i < p.ARRAY_SIZE then
      cyclicLoop p A B id fuel (i + p.nb_threads) (m.store id i (minElem (A i) (B i)))
    else some m

/-- The function `thread_cyclic` run by the thread `id`. -/
def thread_cyclic {V : Type} [LinearOrder V] (p : Params) (A B : Nat → V) (fuel id : Nat)
    (m : Mem V) : Option (Mem V) :=
  cyclicLoop p A B id fuel id m

/-- The value `(ARRAY_SIZE + BLOCK_SIZE - 1) / BLOCK_SIZE` that `thread_block` keeps in
`nb_blocks` and `main` keeps in `total_blocks`. -/
def total_blocks (p : Params) : Nat :=
  (p.ARRAY_SIZE + p.BLOCK_SIZE - 1) / p.BLOCK_SIZE

/-- The local `start` of a block: `blk * BLOCK_SIZE`. -/
def blockStart (p : Params) (blk : Nat) : Nat :=
  blk * p.BLOCK_SIZE

/-- The local `end` of a block: `start + BLOCK_SIZE`, replaced by `ARRAY_SIZE` when larger. -/
def blockEnd (p : Params) (blk : Nat) : Nat :=
  if blockStart p blk + p.BLOCK_SIZE > p.ARRAY_SIZE then p.ARRAY_SIZE
  else blockStart p blk + p.BLOCK_SIZE

/-- The inner loop `for (i = start; i < end; i++)` of `thread_block`, entered with the loop
variable equal to `i`; `none` when the fuel runs out. -/
def blockLoop {V : Type} [LinearOrder V] (A B : Nat → V) (id e : Nat) :
    Nat → Nat → Mem V → Option (Mem V)
  | 0, _, _ => none
  | fuel + 1, i, m =>
    if i < e then blockLoop A B id e fuel (i + 1) (m.store id i (minElem (A i) (B i)))
    else some m

/-- The outer loop `for (blk = ...; blk < nb_blocks; blk += nb_threads)` of `thread_block`,
entered with the loop variable equal to `blk`; the inner loop gets `inner` units of fuel. -/
def blocksLoop {V : Type} [LinearOrder V] (p : Params) (A B : Nat → V) (id inner : Nat) :
    Nat → Nat → Mem V → Option (Mem V)
  | 0, _, _ => none
  | fuel + 1, blk, m =>
    if blk < total_blocks p then
      match blockLoop A B id (blockEnd p blk) inner (blockStart p blk) m with
      | none => none
      | some m1 => blocksLoop p A B id inner fuel (blk + p.nb_threads) m1
    else some m

/-- The function `thread_block` run by the thread `id`. -/
def thread_block {V : Type} [LinearOrder V] (p : Params) (A B : Nat → V) (fuel id : Nat)
    (m : Mem V) : Option (Mem V) :=
  blocksLoop p A B id fuel fuel id m

/-- The threads of one trial of a static strategy, each run to completion, in the order of
the list. -/
def runWorkers {V : Type} (worker : Nat → Mem V → Option (Mem V)) :
    List Nat → Mem V → Option (Mem V)
  | [], m => some m
  | id :: rest, m =>
    match worker id m with
    | none => none
    | some m1 => runWorkers worker rest m1

/-- An order in which the threads `0 .. nb_threads - 1` of a trial may run. -/
def IsOrder (p : Params) (order : List Nat) : Prop :=
  List.Perm order (List.range p.nb_threads)

/-- Where a thread running `thread_farming` stands.
* `atLock lc`: at the head of `while (1)`, before the lock, with `local_count = lc`;
* `claimed lc blk`: after the unlock, before the test `blk * BLOCK_SIZE >= ARRAY_SIZE`;
* `inLoop lc blk i e`: at the head of `for (i = start; i < end; i++)`, with `end = e`;
* `done`: returned. -/
inductive PC where
  | atLock (local_count : Nat)
  | claimed (local_count blk : Nat)
  | inLoop (local_count blk i e : Nat)
  | done
deriving DecidableEq

/-- The shared state of a farming trial: the counter `current_block`, the array
`blocks_processed`, the place of every thread, the output array, and the record of the
claims: the pair `(id, blk)` is a critical section in which thread `id` read `blk`. -/
structure FState (V : Type) where
  current_block : Nat
  blocks_processed : Nat → Nat
  pc : Nat → PC
  mem : Mem V
  claims : List (Nat × Nat)

/-- One step of the thread `id` running `thread_farming`. -/
def thread_farming {V : Type} [LinearOrder V] (p : Params) (A B : Nat → V) (id : Nat)
    (s : FState V) : FState V :=
  match s.pc id with
  | PC.atLock lc =>
    { s with
      current_block := s.current_block + 1
      pc := Function.update s.pc id (PC.claimed lc s.current_block)
      claims := (id, s.current_block) :: s.claims }
  | PC.claimed lc blk =>
    if blk * p.BLOCK_SIZE ≥ p.ARRAY_SIZE then
      { s with
        blocks_processed := Function.update s.blocks_processed id lc
        pc := Function.update s.pc id PC.done }
    else
      { s with pc := Function.update s.pc id (PC.inLoop lc blk (blockStart p blk) (blockEnd p blk)) }
  | PC.inLoop lc blk i e =>
    if i < e then
      { s with
        mem := s.mem.store id i (minElem (A i) (B i))
        pc := Function.update s.pc id (PC.inLoop lc blk (i + 1) e) }
    else
      { s with pc := Function.update s.pc id (PC.atLock (lc + 1)) }
  | PC.done => s

/-- One step of a farming trial: the thread `w` moves, when there is such a thread. -/
def farmStep {V : Type} [LinearOrder V] (p : Params) (A B : Nat → V) (s : FState V)
    (w : Nat) : FState V :=
  if w < p.nb_threads then thread_farming p A B w s else s

/-- The steps of a farming trial taken by the threads in the order of the schedule. -/
def runSchedule {V : Type} [LinearOrder V] (p : Params) (A B : Nat → V)
    (sched : List Nat) (s : FState V) : FState V :=
  sched.foldl (farmStep p A B) s

/-- The start of a farming trial in `main`: `current_block = 0`, `blocks_processed` zeroed
by `memset`, every thread freshly created; the array `C` is what it was. -/
def trialStart {V : Type} (C : Nat → V) : FState V :=
  { current_block := 0
    blocks_processed := fun _ => 0
    pc := fun _ => PC.atLock 0
    mem := ⟨C, []⟩
    claims := [] }

/-- All the threads of the trial have returned, so that `pthread_join` returns for each. -/
def AllDone {V : Type} (p : Params) (s : FState V) : Prop :=
  ∀ w, w < p.nb_threads → s.pc w = PC.done

instance {V : Type} (p : Params) (s : FState V) : Decidable (AllDone p s) :=
  inferInstanceAs (Decidable (∀ w, w < p.nb_threads → s.pc w = PC.done))

/-- A finished farming trial from the array `C0`: the state `s` in which a schedule ends
with all threads returned. -/
def FarmTrial {V : Type} [LinearOrder V] (p : Params) (A B : Nat → V) (C0 : Nat → V)
    (s : FState V) : Prop :=
  ∃ sched, runSchedule p A B sched (trialStart C0) = s ∧ AllDone p s

/-- The sum `f 0 + ... + f (n - 1)`. -/
def sumTo (f : Nat → Nat) : Nat → Nat
  | 0 => 0
  | n + 1 => sumTo f n + f n

/-- One iteration of the scan of `main` over `blocks_processed`, on the pair
`(min_blocks, max_blocks)`. -/
def scanStep (mm : Int × Int) (count : Int) : Int × Int :=
  (if mm.1 = -1 ∨ count < mm.1 then count else mm.1,
   if mm.2 = -1 ∨ count > mm.2 then count else mm.2)

/-- The scan of `main`: `min_blocks = max_blocks = -1`, then one iteration for each
`i = 0 .. nb_threads - 1`. -/
def loadBalanceScan (T : Nat) (blocks : Nat → Int) : Int × Int :=
  (List.range T).foldl (fun mm i => scanStep mm (blocks i)) (-1, -1)

/-- The exit test of `thread_farming`, `blk * BLOCK_SIZE >= ARRAY_SIZE`. -/
def farmingExit (p : Params) (blk : Nat) : Bool :=
  decide (blk * p.BLOCK_SIZE ≥ p.ARRAY_SIZE)

/-- The validation the specification words: the claimed index is compared with the total
block count. -/
def pastTotalBlocks (p : Params) (blk : Nat) : Bool :=
  decide (blk ≥ total_blocks p)

/-- The number of stores `C[i] = ...` made by the thread `id`. -/
def storesBy {V : Type} (m : Mem V) (id i : Nat) : Nat :=
  m.writes.count (id, i)

/-- The number of stores `C[i] = ...` made by all threads together. -/
def storesAt {V : Type} (m : Mem V) (i : Nat) : Nat :=
  (m.writes.map Prod.snd).count i

/-- The number of critical sections in which the index `blk` was read. -/
def claimsOf {V : Type} (s : FState V) (blk : Nat) : Nat :=
  (s.claims.map Prod.snd).count blk

/-- The number of critical sections the thread `w` has gone through, read off its place:
`local_count` finished blocks, plus the claim under way, plus the failing one at the end. -/
def claimsMade {V : Type} (s : FState V) (w : Nat) : Nat :=
  match s.pc w with
  | PC.atLock lc => lc
  | PC.claimed lc _ => lc + 1
  | PC.inLoop lc _ _ _ => lc + 1
  | PC.done => s.blocks_processed w + 1

/-- Whether the thread `w` holds, or has returned on, an index past the last block. -/
def failedClaims {V : Type} (p : Params) (s : FState V) (w : Nat) : Nat :=
  match s.pc w with
  | PC.claimed _ blk => if total_blocks p ≤ blk then 1 else 0
  | PC.done => 1
  | _ => 0

/-- The invariant of a farming trial on the counter, the places and the claims. -/
structure FInv {V : Type} (p : Params) (s : FState V) : Prop where
  idle : ∀ w, p.nb_threads ≤ w → s.pc w = PC.atLock 0
  loop_wf : ∀ w lc blk i e, s.pc w = PC.inLoop lc blk i e →
    blk < total_blocks p ∧ e = blockEnd p blk ∧ blockStart p blk ≤ i ∧ i ≤ e
  claims_lt : ∀ w k, (w, k) ∈ s.claims → k < s.current_block
  claims_nodup : (s.claims.map Prod.snd).Nodup
  claims_all : ∀ k, k < s.current_block → ∃ w, (w, k) ∈ s.claims
  held_claimed : ∀ w lc blk, s.pc w = PC.claimed lc blk → (w, blk) ∈ s.claims
  held_loop : ∀ w lc blk i e, s.pc w = PC.inLoop lc blk i e → (w, blk) ∈ s.claims
  made : sumTo (claimsMade s) p.nb_threads = s.current_block
  failed : sumTo (failedClaims p s) p.nb_threads = s.current_block - total_blocks p
  claims_thread : ∀ w k, (w, k) ∈ s.claims → w < p.nb_threads

/-- The invariant of a farming trial on the output array and the stores, for a trial
started with the array `C0`. -/
structure MInv {V : Type} [LinearOrder V] (p : Params) (A B C0 : Nat → V) (s : FState V) :
    Prop where
  writes_lt : ∀ w j, (w, j) ∈ s.mem.writes → j < p.ARRAY_SIZE
  writes_claim : ∀ w j, (w, j) ∈ s.mem.writes → (w, j / p.BLOCK_SIZE) ∈ s.claims
  writes_val : ∀ w j, (w, j) ∈ s.mem.writes → s.mem.C j = minElem (A j) (B j)
  writes_nodup : (s.mem.writes.map Prod.snd).Nodup
  unwritten : ∀ j, (∀ w, (w, j) ∉ s.mem.writes) → s.mem.C j = C0 j
  fresh : ∀ w lc blk, s.pc w = PC.claimed lc blk →
    ∀ w1 j, (w1, j) ∈ s.mem.writes → j / p.BLOCK_SIZE ≠ blk
  below : ∀ w lc blk i e, s.pc w = PC.inLoop lc blk i e →
    ∀ w1 j, (w1, j) ∈ s.mem.writes → j / p.BLOCK_SIZE = blk → j < i
  cover : ∀ j, j < p.ARRAY_SIZE →
    (∃ w, (w, j) ∈ s.mem.writes) ∨ s.current_block ≤ j / p.BLOCK_SIZE ∨
    (∃ w lc, s.pc w = PC.claimed lc (j / p.BLOCK_SIZE)) ∨
    (∃ w lc i e, s.pc w = PC.inLoop lc (j / p.BLOCK_SIZE) i e ∧ i ≤ j)

/-- The steps a thread standing at `pc` can still take before its next critical section
or its return, bounded from above. -/
def pcWeight (p : Params) : PC → Nat
  | PC.atLock _ => 0
  | PC.claimed _ _ => p.BLOCK_SIZE + 3
  | PC.inLoop _ _ i e => 2 + (e - i)
  | PC.done => 0

/-- A bound on the number of steps the threads of a farming trial can still take. -/
def stepsLeft {V : Type} (p : Params) (s : FState V) : Nat :=
  (p.BLOCK_SIZE + 4) * (total_blocks p + p.nb_threads - s.current_block) +
    sumTo (fun w => pcWeight p (s.pc w)) p.nb_threads

/-- The scenario of the specification: `N = 8`, `B = 4`, `T = 2`. -/
def scenario : Params := ⟨8, 4, 2⟩

/-- A schedule of the scenario in which the two threads take turns. -/
def turns : List Nat := [0, 1, 0, 1, 0, 1, 0, 1, 0, 1, 0, 1, 0, 1, 0, 1, 0, 1]

/-- Five blocks of one element for two threads: `total_blocks = 5`, `T = 2`. -/
def fiveBlocks : Params := ⟨5, 1, 2⟩

/-- A schedule of `fiveBlocks` whose five successful claims are made by the threads
`0, 1, 0, 1, 0`, in this order. -/
def claims01010 : List Nat :=
  [0, 1, 0, 0, 0, 1, 1, 1, 0, 1, 0, 0, 0, 1, 1, 1, 0, 0, 0, 0, 1, 1, 0, 0]

/-- The array `blocks_processed` as the scan of `main` reads it. -/
def countsOf {V : Type} (s : FState V) : Nat → Int :=
  fun w => (s.blocks_processed w : Int)

/-- The largest `int`. -/
def INT_MAX : Nat := 2147483647

/-- The condition under which no `int` expression of `thread_block`, `thread_farming` and
`main` leaves the range of `int`: the largest values are `ARRAY_SIZE + BLOCK_SIZE - 1`,
and `start + BLOCK_SIZE` for the largest index a thread can hold, which is below
`total_blocks + nb_threads`. -/
def intRange (p : Params) : Prop :=
  p.ARRAY_SIZE + p.BLOCK_SIZE - 1 ≤ INT_MAX ∧
    (total_blocks p + p.nb_threads) * p.BLOCK_SIZE ≤ INT_MAX

/-- What a run from the memory `m` to the memory `m1` did, for a set `S` of pairs
(thread, index): every pair of `S` was stored once more, with the minimum of the two
inputs, the last store at an index of `S` being one of these; no other pair was stored
and the other indices hold what they held. -/
structure Effect {V : Type} [LinearOrder V] (A B : Nat → V) (S : Nat → Nat → Prop)
    (m m1 : Mem V) : Prop where
  hit : ∀ w j, S w j → m1.C j = minElem (A j) (B j)
  miss : ∀ j, (∀ w, ¬ S w j) → m1.C j = m.C j
  once : ∀ w j, S w j → storesBy m1 w j = storesBy m w j + 1
  other : ∀ w j, ¬ S w j → storesBy m1 w j = storesBy m w j

end MinArray

namespace MinArray

variable {V : Type}

/-! ## Stores -/

theorem storesBy_store (m : Mem V) (id i : Nat) (v : V) (w j : Nat) :
    storesBy (m.store id i v) w j = storesBy m w j + if w = id ∧ j = i then 1 else 0 := by
  unfold storesBy Mem.store
  simp only [List.count_cons, beq_iff_eq, Prod.mk.injEq]
  by_cases h : id = w ∧ i = j
  · rw [if_pos h, if_pos ⟨h.1.symm, h.2.symm⟩]
  · rw [if_neg h, if_neg (fun h1 => h ⟨h1.1.symm, h1.2.symm⟩)]

theorem Effect.refl [LinearOrder V] (A B : Nat → V) {S : Nat → Nat → Prop} (m : Mem V)
    (hS : ∀ w j, ¬ S w j) : Effect A B S m m :=
  ⟨fun w j h => absurd h (hS w j), fun _ _ => rfl, fun w j h => absurd h (hS w j),
   fun _ _ _ => rfl⟩

theorem Effect.congr [LinearOrder V] {A B : Nat → V} {S S1 : Nat → Nat → Prop} {m m1 : Mem V}
    (h : Effect A B S m m1) (hS : ∀ w j, S w j ↔ S1 w j) : Effect A B S1 m m1 :=
  ⟨fun w j hj => h.hit w j ((hS w j).2 hj),
   fun j hj => h.miss j (fun w hw => hj w ((hS w j).1 hw)),
   fun w j hj => h.once w j ((hS w j).2 hj),
   fun w j hj => h.other w j (fun hw => hj ((hS w j).1 hw))⟩

theorem Effect.store [LinearOrder V] (A B : Nat → V) (m : Mem V) (id i : Nat) :
    Effect A B (fun w j => w = id ∧ j = i) m (m.store id i (minElem (A i) (B i))) := by
  refine ⟨?_, ?_, ?_, ?_⟩
  · rintro w j ⟨-, rfl⟩
    simp [Mem.store]
  · intro j hj
    have : j ≠ i := fun h => hj id ⟨rfl, h⟩
    simp [Mem.store, Function.update_noteq this]
  · intro w j h
    rw [storesBy_store, if_pos h]
  · intro w j h
    rw [storesBy_store, if_neg h, Nat.add_zero]

theorem Effect.trans [LinearOrder V] {A B : Nat → V} {S1 S2 : Nat → Nat → Prop} {m m1 m2 : Mem V}
    (h1 : Effect A B S1 m m1) (h2 : Effect A B S2 m1 m2)
    (hd : ∀ w j, S1 w j → S2 w j → False) :
    Effect A B (fun w j => S1 w j ∨ S2 w j) m m2 := by
  refine ⟨?_, ?_, ?_, ?_⟩
  · intro w j h
    by_cases h2j : ∃ w2, S2 w2 j
    · obtain ⟨w2, hw2⟩ := h2j
      exact h2.hit w2 j hw2
    · have hno : ∀ w2, ¬ S2 w2 j := fun w2 hw2 => h2j ⟨w2, hw2⟩
      rw [h2.miss j hno]
      rcases h with h | h
      · exact h1.hit w j h
      · exact absurd h (hno w)
  · intro j hj
    rw [h2.miss j (fun w hw => hj w (Or.inr hw)), h1.miss j (fun w hw => hj w (Or.inl hw))]
  · intro w j h
    rcases h with h | h
    · rw [h2.other w j (fun h2j => hd w j h h2j), h1.once w j h]
    · rw [h2.once w j h, h1.other w j (fun h1j => hd w j h1j h)]
  · intro w j h
    rw [h2.other w j (fun h2j => h (Or.inr h2j)), h1.other w j (fun h1j => h (Or.inl h1j))]

/-! ## Arithmetic of blocks -/

theorem exit_iff (p : Params) (hB : 0 < p.BLOCK_SIZE) (blk : Nat) :
    blk * p.BLOCK_SIZE ≥ p.ARRAY_SIZE ↔ blk ≥ total_blocks p := by
  have key : (p.ARRAY_SIZE + p.BLOCK_SIZE - 1) / p.BLOCK_SIZE ≤ blk ↔
      p.ARRAY_SIZE + p.BLOCK_SIZE - 1 < (blk + 1) * p.BLOCK_SIZE := by
    rw [← Nat.lt_succ_iff, Nat.div_lt_iff_lt_mul hB]
  unfold total_blocks
  rw [ge_iff_le, ge_iff_le, key, Nat.succ_mul]
  omega

theorem div_lt_total (p : Params) (hB : 0 < p.BLOCK_SIZE) {j : Nat}
    (hj : j < p.ARRAY_SIZE) : j / p.BLOCK_SIZE < total_blocks p := by
  by_contra h
  have h1 : j / p.BLOCK_SIZE * p.BLOCK_SIZE ≥ p.ARRAY_SIZE :=
    (exit_iff p hB _).2 (Nat.le_of_not_lt h)
  have h2 : j / p.BLOCK_SIZE * p.BLOCK_SIZE ≤ j := Nat.div_mul_le_self j p.BLOCK_SIZE
  omega

theorem div_eq_iff_block (B : Nat) (hB : 0 < B) (j blk : Nat) :
    j / B = blk ↔ blk * B ≤ j ∧ j < blk * B + B := by
  have h1 : blk ≤ j / B ↔ blk * B ≤ j := Nat.le_div_iff_mul_le hB
  have h2 : j / B < blk + 1 ↔ j < (blk + 1) * B := Nat.div_lt_iff_lt_mul hB
  rw [Nat.succ_mul] at h2
  omega

theorem mem_block_iff (p : Params) (hB : 0 < p.BLOCK_SIZE) (j blk : Nat) :
    (blockStart p blk ≤ j ∧ j < blockEnd p blk) ↔
      (j < p.ARRAY_SIZE ∧ j / p.BLOCK_SIZE = blk) := by
  rw [div_eq_iff_block p.BLOCK_SIZE hB]
  unfold blockEnd blockStart
  split <;> omega

theorem blockEnd_le (p : Params) (blk : Nat) : blockEnd p blk ≤ p.ARRAY_SIZE := by
  unfold blockEnd
  split <;> omega

theorem next_in_class {T i j : Nat} (hij : i < j) (h : j % T = i % T) :
    i + T ≤ j := by
  have h0 : (j - i) % T = 0 := Nat.sub_mod_eq_zero_of_mod_eq h
  have h1 : T ∣ j - i := Nat.dvd_of_mod_eq_zero h0
  have h2 : T ≤ j - i := Nat.le_of_dvd (by omega) h1
  omega

theorem class_step {T i j : Nat} :
    (j = i ∨ (i + T ≤ j ∧ j % T = (i + T) % T)) ↔ (i ≤ j ∧ j % T = i % T) := by
  rw [Nat.add_mod_right]
  constructor
  · rintro (rfl | ⟨h1, h2⟩)
    · exact ⟨le_refl _, rfl⟩
    · exact ⟨by omega, h2⟩
  · rintro ⟨h1, h2⟩
    rcases Nat.eq_or_lt_of_le h1 with h | h
    · exact Or.inl h.symm
    · exact Or.inr ⟨next_in_class h h2, h2⟩

/-! ## The loops of the static strategies -/

theorem cyclicLoop_effect [LinearOrder V] (p : Params) (A B : Nat → V) (id : Nat)
    (hT : 0 < p.nb_threads) :
    ∀ (fuel i : Nat) (m : Mem V), 0 < fuel → p.ARRAY_SIZE < fuel + i →
      ∃ m1, cyclicLoop p A B id fuel i m = some m1 ∧
        Effect A B (fun w j => w = id ∧ i ≤ j ∧ j < p.ARRAY_SIZE ∧
          j % p.nb_threads = i % p.nb_threads) m m1 := by
  intro fuel
  induction fuel with
  | zero => intro i m h; exact absurd h (Nat.lt_irrefl 0)
  | succ fuel ih =>
    intro i m _ hf
    unfold cyclicLoop
    by_cases hi : i < p.ARRAY_SIZE
    · rw [if_pos hi]
      obtain ⟨m1, hm1, he⟩ := ih (i + p.nb_threads) (m.store id i (minElem (A i) (B i)))
        (by omega) (by omega)
      refine ⟨m1, hm1, ?_⟩
      refine ((Effect.store A B m id i).trans he ?_).congr ?_
      · rintro w j ⟨-, rfl⟩ ⟨-, h, -⟩
        omega
      · intro w j
        have hc := @class_step p.nb_threads i j
        constructor
        · rintro (⟨hw, hj⟩ | ⟨hw, h1, h2, h3⟩)
          · exact ⟨hw, (hc.1 (Or.inl hj)).1, hj ▸ hi, (hc.1 (Or.inl hj)).2⟩
          · exact ⟨hw, (hc.1 (Or.inr ⟨h1, h3⟩)).1, h2, (hc.1 (Or.inr ⟨h1, h3⟩)).2⟩
        · rintro ⟨hw, h1, h2, h3⟩
          rcases hc.2 ⟨h1, h3⟩ with h | ⟨h4, h5⟩
          · exact Or.inl ⟨hw, h⟩
          · exact Or.inr ⟨hw, h4, h2, h5⟩
    · rw [if_neg hi]
      exact ⟨m, rfl, Effect.refl A B m (by rintro w j ⟨-, h1, h2, -⟩; omega)⟩

theorem blockLoop_effect [LinearOrder V] (A B : Nat → V) (id e : Nat) :
    ∀ (fuel i : Nat) (m : Mem V), 0 < fuel → e < fuel + i →
      ∃ m1, blockLoop A B id e fuel i m = some m1 ∧
        Effect A B (fun w j => w = id ∧ i ≤ j ∧ j < e) m m1 := by
  intro fuel
  induction fuel with
  | zero => intro i m h; exact absurd h (Nat.lt_irrefl 0)
  | succ fuel ih =>
    intro i m _ hf
    unfold blockLoop
    by_cases hi : i < e
    · rw [if_pos hi]
      obtain ⟨m1, hm1, he⟩ := ih (i + 1) (m.store id i (minElem (A i) (B i)))
        (by omega) (by omega)
      refine ⟨m1, hm1, ?_⟩
      refine ((Effect.store A B m id i).trans he ?_).congr ?_
      · rintro w j ⟨-, rfl⟩ ⟨-, h, -⟩
        omega
      · intro w j
        constructor
        · rintro (⟨hw, hj⟩ | ⟨hw, h1, h2⟩)
          · exact ⟨hw, by omega, by omega⟩
          · exact ⟨hw, by omega, h2⟩
        · rintro ⟨hw, h1, h2⟩
          by_cases h : j = i
          · exact Or.inl ⟨hw, h⟩
          · exact Or.inr ⟨hw, by omega, h2⟩
    · rw [if_neg hi]
      exact ⟨m, rfl, Effect.refl A B m (by rintro w j ⟨-, h1, h2⟩; omega)⟩

theorem blocksLoop_effect [LinearOrder V] (p : Params) (A B : Nat → V) (id inner : Nat)
    (hB : 0 < p.BLOCK_SIZE) (hT : 0 < p.nb_threads) (hin : p.ARRAY_SIZE < inner) :
    ∀ (fuel blk : Nat) (m : Mem V), 0 < fuel → total_blocks p < fuel + blk →
      ∃ m1, blocksLoop p A B id inner fuel blk m = some m1 ∧
        Effect A B (fun w j => w = id ∧ j < p.ARRAY_SIZE ∧ blk ≤ j / p.BLOCK_SIZE ∧
          (j / p.BLOCK_SIZE) % p.nb_threads = blk % p.nb_threads) m m1 := by
  intro fuel
  induction fuel with
  | zero => intro i m h; exact absurd h (Nat.lt_irrefl 0)
  | succ fuel ih =>
    intro blk m _ hf
    unfold blocksLoop
    by_cases hi : blk < total_blocks p
    · rw [if_pos hi]
      have hle := blockEnd_le p blk
      obtain ⟨m0, hm0, he0⟩ := blockLoop_effect A B id (blockEnd p blk) inner
        (blockStart p blk) m (by omega) (by omega)
      rw [hm0]
      obtain ⟨m1, hm1, he⟩ := ih (blk + p.nb_threads) m0 (by omega) (by omega)
      refine ⟨m1, hm1, ?_⟩
      refine (he0.trans he ?_).congr ?_
      · rintro w j ⟨-, h1, h2⟩ ⟨-, -, h3, -⟩
        have := ((mem_block_iff p hB j blk).1 ⟨h1, h2⟩).2
        omega
      · intro w j
        have hc := @class_step p.nb_threads blk (j / p.BLOCK_SIZE)
        have hm := mem_block_iff p hB j blk
        constructor
        · rintro (⟨hw, h1, h2⟩ | ⟨hw, h1, h2, h3⟩)
          · have h4 := hm.1 ⟨h1, h2⟩
            exact ⟨hw, h4.1, (hc.1 (Or.inl h4.2)).1, (hc.1 (Or.inl h4.2)).2⟩
          · exact ⟨hw, h1, (hc.1 (Or.inr ⟨h2, h3⟩)).1, (hc.1 (Or.inr ⟨h2, h3⟩)).2⟩
        · rintro ⟨hw, h1, h2, h3⟩
          rcases hc.2 ⟨h2, h3⟩ with h | ⟨h4, h5⟩
          · have h6 := hm.2 ⟨h1, h⟩
            exact Or.inl ⟨hw, h6.1, h6.2⟩
          · exact Or.inr ⟨hw, h1, h4, h5⟩
    · rw [if_neg hi]
      refine ⟨m, rfl, Effect.refl A B m ?_⟩
      rintro w j ⟨-, h1, h2, -⟩
      have := div_lt_total p hB h1
      omega

theorem total_blocks_le (p : Params) (hB : 0 < p.BLOCK_SIZE) :
    total_blocks p ≤ p.ARRAY_SIZE := by
  refine (exit_iff p hB p.ARRAY_SIZE).1 ?_
  exact Nat.le_mul_of_pos_right _ hB

theorem thread_cyclic_effect [LinearOrder V] (p : Params) (A B : Nat → V) (fuel id : Nat)
    (hT : 0 < p.nb_threads) (hf : p.ARRAY_SIZE < fuel) (m : Mem V) :
    ∃ m1, thread_cyclic p A B fuel id m = some m1 ∧
      Effect A B (fun w j => w = id ∧ j < p.ARRAY_SIZE ∧
        id ≤ j ∧ j % p.nb_threads = id % p.nb_threads) m m1 := by
  obtain ⟨m1, h1, h2⟩ := cyclicLoop_effect p A B id hT fuel id m (by omega) (by omega)
  exact ⟨m1, h1, h2.congr (fun w j => by tauto)⟩

theorem thread_block_effect [LinearOrder V] (p : Params) (A B : Nat → V) (fuel id : Nat)
    (hB : 0 < p.BLOCK_SIZE) (hT : 0 < p.nb_threads) (hf : p.ARRAY_SIZE < fuel) (m : Mem V) :
    ∃ m1, thread_block p A B fuel id m = some m1 ∧
      Effect A B (fun w j => w = id ∧ j < p.ARRAY_SIZE ∧
        id ≤ j / p.BLOCK_SIZE ∧ (j / p.BLOCK_SIZE) % p.nb_threads = id % p.nb_threads) m m1 := by
  have := total_blocks_le p hB
  exact blocksLoop_effect p A B id fuel hB hT hf fuel id m (by omega) (by omega)

theorem runWorkers_effect [LinearOrder V] (A B : Nat → V)
    (worker : Nat → Mem V → Option (Mem V)) (P : Nat → Nat → Prop) :
    ∀ (order : List Nat) (m : Mem V), order.Nodup →
      (∀ id, id ∈ order → ∀ m0, ∃ m1, worker id m0 = some m1 ∧
        Effect A B (fun w j => w = id ∧ P id j) m0 m1) →
      ∃ m1, runWorkers worker order m = some m1 ∧
        Effect A B (fun w j => w ∈ order ∧ P w j) m m1 := by
  intro order
  induction order with
  | nil =>
    intro m _ _
    exact ⟨m, rfl, Effect.refl A B m (by simp)⟩
  | cons id rest ih =>
    intro m hnd hw
    obtain ⟨m0, hm0, he0⟩ := hw id (List.mem_cons_self _ _) m
    obtain ⟨m1, hm1, he1⟩ := ih m0 (List.nodup_cons.1 hnd).2
      (fun id1 h1 => hw id1 (List.mem_cons_of_mem _ h1))
    unfold runWorkers
    rw [hm0]
    refine ⟨m1, hm1, (he0.trans he1 ?_).congr ?_⟩
    · rintro w j ⟨rfl, -⟩ ⟨h, -⟩
      exact (List.nodup_cons.1 hnd).1 h
    · intro w j
      constructor
      · rintro (⟨rfl, h⟩ | ⟨h1, h2⟩)
        · exact ⟨List.mem_cons_self _ _, h⟩
        · exact ⟨List.mem_cons_of_mem _ h1, h2⟩
      · rintro ⟨h1, h2⟩
        rcases List.mem_cons.1 h1 with h | h
        · exact Or.inl ⟨h, h ▸ h2⟩
        · exact Or.inr ⟨h, h2⟩

theorem order_nodup {p : Params} {order : List Nat} (h : IsOrder p order) : order.Nodup :=
  (List.Perm.nodup_iff h).2 (List.nodup_range _)

theorem order_mem {p : Params} {order : List Nat} (h : IsOrder p order) (w : Nat) :
    w ∈ order ↔ w < p.nb_threads := by
  rw [List.Perm.mem_iff h, List.mem_range]

/-- A trial of the cyclic strategy, the threads taken in any order: every index
`j < ARRAY_SIZE` is stored once, by the thread `j % nb_threads`. -/
theorem cyclic_trial_effect [LinearOrder V] (p : Params) (A B : Nat → V) (fuel : Nat)
    (hT : 0 < p.nb_threads) (hf : p.ARRAY_SIZE < fuel) (order : List Nat)
    (ho : IsOrder p order) (m : Mem V) :
    ∃ m1, runWorkers (thread_cyclic p A B fuel) order m = some m1 ∧
      Effect A B (fun w j => j < p.ARRAY_SIZE ∧ j % p.nb_threads = w) m m1 := by
  obtain ⟨m1, h1, h2⟩ := runWorkers_effect A B (thread_cyclic p A B fuel)
    (fun id j => j < p.ARRAY_SIZE ∧ id ≤ j ∧ j % p.nb_threads = id % p.nb_threads)
    order m (order_nodup ho) (fun id _ m0 => thread_cyclic_effect p A B fuel id hT hf m0)
  refine ⟨m1, h1, h2.congr ?_⟩
  intro w j
  rw [order_mem ho]
  constructor
  · rintro ⟨h3, h4, -, h5⟩
    rw [Nat.mod_eq_of_lt h3] at h5
    exact ⟨h4, h5⟩
  · rintro ⟨h3, rfl⟩
    exact ⟨Nat.mod_lt _ hT, h3, Nat.mod_le _ _, (Nat.mod_mod _ _).symm⟩

/-- A trial of the block strategy, the threads taken in any order: every index
`j < ARRAY_SIZE` is stored once, by the thread `(j / BLOCK_SIZE) % nb_threads`. -/
theorem block_trial_effect [LinearOrder V] (p : Params) (A B : Nat → V) (fuel : Nat)
    (hB : 0 < p.BLOCK_SIZE) (hT : 0 < p.nb_threads) (hf : p.ARRAY_SIZE < fuel)
    (order : List Nat) (ho : IsOrder p order) (m : Mem V) :
    ∃ m1, runWorkers (thread_block p A B fuel) order m = some m1 ∧
      Effect A B (fun w j => j < p.ARRAY_SIZE ∧ (j / p.BLOCK_SIZE) % p.nb_threads = w) m m1 := by
  obtain ⟨m1, h1, h2⟩ := runWorkers_effect A B (thread_block p A B fuel)
    (fun id j => j < p.ARRAY_SIZE ∧ id ≤ j / p.BLOCK_SIZE ∧
      (j / p.BLOCK_SIZE) % p.nb_threads = id % p.nb_threads)
    order m (order_nodup ho) (fun id _ m0 => thread_block_effect p A B fuel id hB hT hf m0)
  refine ⟨m1, h1, h2.congr ?_⟩
  intro w j
  rw [order_mem ho]
  constructor
  · rintro ⟨h3, h4, -, h5⟩
    rw [Nat.mod_eq_of_lt h3] at h5
    exact ⟨h4, h5⟩
  · rintro ⟨h3, rfl⟩
    exact ⟨Nat.mod_lt _ hT, h3, Nat.mod_le _ _, (Nat.mod_mod _ _).symm⟩

/-! ## The steps of `thread_farming` -/

/-- Case analysis on one step of `thread_farming`. -/
theorem step_cases [LinearOrder V] (p : Params) (A B : Nat → V) (w : Nat) (s : FState V)
    (P : FState V → Prop)
    (hclaim : ∀ lc, s.pc w = PC.atLock lc →
      P { s with
          current_block := s.current_block + 1
          pc := Function.update s.pc w (PC.claimed lc s.current_block)
          claims := (w, s.current_block) :: s.claims })
    (hexit : ∀ lc blk, s.pc w = PC.claimed lc blk → blk * p.BLOCK_SIZE ≥ p.ARRAY_SIZE →
      P { s with
          blocks_processed := Function.update s.blocks_processed w lc
          pc := Function.update s.pc w PC.done })
    (henter : ∀ lc blk, s.pc w = PC.claimed lc blk → ¬ blk * p.BLOCK_SIZE ≥ p.ARRAY_SIZE →
      P { s with
          pc := Function.update s.pc w (PC.inLoop lc blk (blockStart p blk) (blockEnd p blk)) })
    (hstore : ∀ lc blk i e, s.pc w = PC.inLoop lc blk i e → i < e →
      P { s with
          mem := s.mem.store w i (minElem (A i) (B i))
          pc := Function.update s.pc w (PC.inLoop lc blk (i + 1) e) })
    (hnext : ∀ lc blk i e, s.pc w = PC.inLoop lc blk i e → ¬ i < e →
      P { s with pc := Function.update s.pc w (PC.atLock (lc + 1)) })
    (hdone : s.pc w = PC.done → P s) :
    P (thread_farming p A B w s) := by
  unfold thread_farming
  split
  · next lc h => exact hclaim lc h
  · next lc blk h =>
    split
    · next h1 => exact hexit lc blk h h1
    · next h1 => exact henter lc blk h h1
  · next lc blk i e h =>
    split
    · next h1 => exact hstore lc blk i e h h1
    · next h1 => exact hnext lc blk i e h h1
  · next h => exact hdone h

theorem update_pc_eq {pc : Nat → PC} {w w1 : Nat} {v x : PC}
    (h : Function.update pc w v w1 = x) : (w1 = w ∧ v = x) ∨ (w1 ≠ w ∧ pc w1 = x) := by
  by_cases hw : w1 = w
  · subst hw
    rw [Function.update_same] at h
    exact Or.inl ⟨rfl, h⟩
  · rw [Function.update_noteq hw] at h
    exact Or.inr ⟨hw, h⟩

theorem sumTo_congr {f g : Nat → Nat} : ∀ n, (∀ x, x < n → g x = f x) → sumTo g n = sumTo f n
  | 0, _ => rfl
  | n + 1, h => by
    unfold sumTo
    rw [sumTo_congr n (fun x hx => h x (Nat.lt_succ_of_lt hx)), h n (Nat.lt_succ_self n)]

theorem sumTo_update {f g : Nat → Nat} {w : Nat} (h : ∀ x, x ≠ w → g x = f x) :
    ∀ n, w < n → sumTo g n + f w = sumTo f n + g w
  | 0, hw => absurd hw (Nat.not_lt_zero _)
  | n + 1, hw => by
    unfold sumTo
    rcases Nat.eq_or_lt_of_le (Nat.le_of_lt_succ hw) with h1 | h1
    · subst h1
      rw [sumTo_congr w (fun x hx => h x (Nat.ne_of_lt hx))]
      omega
    · have := sumTo_update h n h1
      rw [h n (Nat.ne_of_gt h1)]
      omega

theorem sumTo_le {f : Nat → Nat} {c : Nat} (h : ∀ x, f x ≤ c) : ∀ n, sumTo f n ≤ n * c
  | 0 => by simp [sumTo]
  | n + 1 => by
    unfold sumTo
    have := sumTo_le h n
    have := h n
    rw [Nat.succ_mul]
    omega

theorem sumTo_eq_sum (f : Nat → Nat) : ∀ n, sumTo f n = ∑ w in Finset.range n, f w
  | 0 => by simp [sumTo]
  | n + 1 => by
    unfold sumTo
    rw [Finset.sum_range_succ, sumTo_eq_sum f n]

/-! ## The invariant on the counter, the places and the claims -/

theorem made_update (s s1 : FState V) (w : Nat) (v : PC)
    (hpc : s1.pc = Function.update s.pc w v)
    (hbp : ∀ y, y ≠ w → s1.blocks_processed y = s.blocks_processed y)
    (n : Nat) (hw : w < n) :
    sumTo (claimsMade s1) n + claimsMade s w = sumTo (claimsMade s) n + claimsMade s1 w := by
  refine sumTo_update (fun x hx => ?_) n hw
  unfold claimsMade
  rw [hpc, Function.update_noteq hx, hbp x hx]

theorem failed_update (p : Params) (s s1 : FState V) (w : Nat) (v : PC)
    (hpc : s1.pc = Function.update s.pc w v) (n : Nat) (hw : w < n) :
    sumTo (failedClaims p s1) n + failedClaims p s w =
      sumTo (failedClaims p s) n + failedClaims p s1 w := by
  refine sumTo_update (fun x hx => ?_) n hw
  unfold failedClaims
  rw [hpc, Function.update_noteq hx]

theorem FInv_claim (p : Params) (s s1 : FState V) (w lc : Nat)
    (hw : w < p.nb_threads) (inv : FInv p s) (hpc : s.pc w = PC.atLock lc)
    (e1 : s1.current_block = s.current_block + 1)
    (e2 : s1.pc = Function.update s.pc w (PC.claimed lc s.current_block))
    (e3 : s1.claims = (w, s.current_block) :: s.claims)
    (e4 : s1.blocks_processed = s.blocks_processed) : FInv p s1 := by
  refine ⟨?_, ?_, ?_, ?_, ?_, ?_, ?_, ?_, ?_, ?_⟩
  · intro w1 h1
    rw [e2, Function.update_noteq (by omega)]
    exact inv.idle w1 h1
  · intro w1 lc1 blk i e h
    rw [e2] at h
    rcases update_pc_eq h with ⟨-, h1⟩ | ⟨-, h1⟩
    · exact PC.noConfusion h1
    · exact inv.loop_wf w1 lc1 blk i e h1
  · intro w1 k h
    rw [e3] at h
    rw [e1]
    rcases List.mem_cons.1 h with h1 | h1
    · have : k = s.current_block := (Prod.mk.inj h1).2
      omega
    · exact Nat.lt_succ_of_lt (inv.claims_lt w1 k h1)
  · rw [e3, List.map_cons, List.nodup_cons]
    refine ⟨?_, inv.claims_nodup⟩
    intro h
    obtain ⟨⟨w1, k⟩, h1, h2⟩ := List.mem_map.1 h
    have := inv.claims_lt w1 k h1
    simp only at h2
    omega
  · intro k hk
    rw [e1] at hk
    rw [e3]
    rcases Nat.eq_or_lt_of_le (Nat.le_of_lt_succ hk) with h1 | h1
    · exact ⟨w, h1 ▸ List.mem_cons_self _ _⟩
    · obtain ⟨w1, h2⟩ := inv.claims_all k h1
      exact ⟨w1, List.mem_cons_of_mem _ h2⟩
  · intro w1 lc1 blk h
    rw [e2] at h
    rw [e3]
    rcases update_pc_eq h with ⟨h0, h1⟩ | ⟨-, h1⟩
    · injection h1 with h2 h3
      rw [h0, ← h3]
      exact List.mem_cons_self _ _
    · exact List.mem_cons_of_mem _ (inv.held_claimed w1 lc1 blk h1)
  · intro w1 lc1 blk i e h
    rw [e2] at h
    rw [e3]
    rcases update_pc_eq h with ⟨-, h1⟩ | ⟨-, h1⟩
    · exact PC.noConfusion h1
    · exact List.mem_cons_of_mem _ (inv.held_loop w1 lc1 blk i e h1)
  · have h := made_update s s1 w _ e2 (fun y _ => by rw [e4]) p.nb_threads hw
    have h1 : claimsMade s w = lc := by simp [claimsMade, hpc]
    have h2 : claimsMade s1 w = lc + 1 := by simp [claimsMade, e2]
    have := inv.made
    omega
  · have h := failed_update p s s1 w _ e2 p.nb_threads hw
    have h1 : failedClaims p s w = 0 := by simp [failedClaims, hpc]
    have h2 : failedClaims p s1 w = if total_blocks p ≤ s.current_block then 1 else 0 := by
      simp [failedClaims, e2]
    have := inv.failed
    split at h2 <;> omega
  · intro w1 k h
    rw [e3] at h
    rcases List.mem_cons.1 h with h1 | h1
    · rw [(Prod.mk.inj h1).1]
      exact hw
    · exact inv.claims_thread w1 k h1

theorem FInv_move (p : Params) (s s1 : FState V) (w : Nat) (v : PC)
    (hw : w < p.nb_threads) (inv : FInv p s)
    (e1 : s1.current_block = s.current_block)
    (e2 : s1.pc = Function.update s.pc w v)
    (e3 : s1.claims = s.claims)
    (e4 : ∀ y, y ≠ w → s1.blocks_processed y = s.blocks_processed y)
    (hloop : ∀ lc blk i e, v = PC.inLoop lc blk i e →
      blk < total_blocks p ∧ e = blockEnd p blk ∧ blockStart p blk ≤ i ∧ i ≤ e)
    (hheld1 : ∀ lc blk, v = PC.claimed lc blk → (w, blk) ∈ s.claims)
    (hheld2 : ∀ lc blk i e, v = PC.inLoop lc blk i e → (w, blk) ∈ s.claims)
    (hmade : claimsMade s1 w = claimsMade s w)
    (hfailed : failedClaims p s1 w = failedClaims p s w) : FInv p s1 := by
  refine ⟨?_, ?_, ?_, ?_, ?_, ?_, ?_, ?_, ?_, ?_⟩
  · intro w1 h1
    rw [e2, Function.update_noteq (by omega)]
    exact inv.idle w1 h1
  · intro w1 lc1 blk i e h
    rw [e2] at h
    rcases update_pc_eq h with ⟨-, h1⟩ | ⟨-, h1⟩
    · exact hloop lc1 blk i e h1
    · exact inv.loop_wf w1 lc1 blk i e h1
  · intro w1 k h
    rw [e3] at h
    rw [e1]
    exact inv.claims_lt w1 k h
  · rw [e3]
    exact inv.claims_nodup
  · intro k hk
    rw [e1] at hk
    rw [e3]
    exact inv.claims_all k hk
  · intro w1 lc1 blk h
    rw [e2] at h
    rw [e3]
    rcases update_pc_eq h with ⟨h0, h1⟩ | ⟨-, h1⟩
    · rw [h0]
      exact hheld1 lc1 blk h1
    · exact inv.held_claimed w1 lc1 blk h1
  · intro w1 lc1 blk i e h
    rw [e2] at h
    rw [e3]
    rcases update_pc_eq h with ⟨h0, h1⟩ | ⟨-, h1⟩
    · rw [h0]
      exact hheld2 lc1 blk i e h1
    · exact inv.held_loop w1 lc1 blk i e h1
  · have h := made_update s s1 w _ e2 e4 p.nb_threads hw
    have := inv.made
    omega
  · have h := failed_update p s s1 w _ e2 p.nb_threads hw
    have := inv.failed
    omega
  · intro w1 k h
    rw [e3] at h
    exact inv.claims_thread w1 k h

theorem blockStart_le_end (p : Params) (blk : Nat)
    (h : ¬ blk * p.BLOCK_SIZE ≥ p.ARRAY_SIZE) : blockStart p blk ≤ blockEnd p blk := by
  unfold blockEnd blockStart
  split <;> omega

/-- One step of a thread keeps the invariant on the counter, the places and the claims. -/
theorem FInv_step [LinearOrder V] (p : Params) (A B : Nat → V) (hB : 0 < p.BLOCK_SIZE)
    (s : FState V) (w : Nat) (hw : w < p.nb_threads) (inv : FInv p s) :
    FInv p (thread_farming p A B w s) := by
  refine step_cases p A B w s (FInv p) ?_ ?_ ?_ ?_ ?_ ?_
  · intro lc hpc
    exact FInv_claim p s _ w lc hw inv hpc rfl rfl rfl rfl
  · intro lc blk hpc hex
    refine FInv_move p s _ w PC.done hw inv rfl rfl rfl ?_ ?_ ?_ ?_ ?_ ?_
    · intro y hy
      exact Function.update_noteq hy _ _
    · intro _ _ _ _ h; exact PC.noConfusion h
    · intro _ _ h; exact PC.noConfusion h
    · intro _ _ _ _ h; exact PC.noConfusion h
    · simp [claimsMade, hpc]
    · have := (exit_iff p hB blk).1 hex
      simp [failedClaims, hpc, ge_iff_le.1 this]
  · intro lc blk hpc hex
    have hlt : blk < total_blocks p := by
      by_contra h
      exact hex ((exit_iff p hB blk).2 (Nat.le_of_not_lt h))
    refine FInv_move p s _ w _ hw inv rfl rfl rfl (fun _ _ => rfl) ?_ ?_ ?_ ?_ ?_
    · intro lc1 blk1 i e h
      injection h with h1 h2 h3 h4
      subst h2 h3 h4
      exact ⟨hlt, rfl, le_refl _, blockStart_le_end p blk hex⟩
    · intro _ _ h; exact PC.noConfusion h
    · intro lc1 blk1 i e h
      injection h with h1 h2 h3 h4
      subst h2
      exact inv.held_claimed w lc blk hpc
    · simp [claimsMade, hpc]
    · simp [failedClaims, hpc, Nat.not_le.2 hlt]
  · intro lc blk i e hpc hi
    have hwf := inv.loop_wf w lc blk i e hpc
    refine FInv_move p s _ w _ hw inv rfl rfl rfl (fun _ _ => rfl) ?_ ?_ ?_ ?_ ?_
    · intro lc1 blk1 i1 e1 h
      injection h with h1 h2 h3 h4
      subst h2 h3 h4
      exact ⟨hwf.1, hwf.2.1, by omega, by omega⟩
    · intro _ _ h; exact PC.noConfusion h
    · intro lc1 blk1 i1 e1 h
      injection h with h1 h2 h3 h4
      subst h2
      exact inv.held_loop w lc blk i e hpc
    · simp [claimsMade, hpc]
    · simp [failedClaims, hpc]
  · intro lc blk i e hpc hi
    refine FInv_move p s _ w _ hw inv rfl rfl rfl (fun _ _ => rfl) ?_ ?_ ?_ ?_ ?_
    · intro _ _ _ _ h; exact PC.noConfusion h
    · intro _ _ h; exact PC.noConfusion h
    · intro _ _ _ _ h; exact PC.noConfusion h
    · simp [claimsMade, hpc]
    · simp [failedClaims, hpc]
  · intro _
    exact inv

theorem FInv.claim_unique {p : Params} {s : FState V} (inv : FInv p s) {w w1 k : Nat}
    (h : (w, k) ∈ s.claims) (h1 : (w1, k) ∈ s.claims) : w = w1 := by
  have := List.inj_on_of_nodup_map inv.claims_nodup h h1 rfl
  exact (Prod.mk.inj this).1

/-! ## The invariant on the output array and the stores -/

theorem MInv_claim [LinearOrder V] (p : Params) (A B C0 : Nat → V) (s s1 : FState V)
    (w lc : Nat) (inv : FInv p s) (mi : MInv p A B C0 s) (hpc : s.pc w = PC.atLock lc)
    (e1 : s1.current_block = s.current_block + 1)
    (e2 : s1.pc = Function.update s.pc w (PC.claimed lc s.current_block))
    (e3 : s1.claims = (w, s.current_block) :: s.claims)
    (e5 : s1.mem = s.mem) : MInv p A B C0 s1 := by
  refine ⟨?_, ?_, ?_, ?_, ?_, ?_, ?_, ?_⟩
  · intro w1 j h
    rw [e5] at h
    exact mi.writes_lt w1 j h
  · intro w1 j h
    rw [e5] at h
    rw [e3]
    exact List.mem_cons_of_mem _ (mi.writes_claim w1 j h)
  · intro w1 j h
    rw [e5] at h ⊢
    exact mi.writes_val w1 j h
  · rw [e5]
    exact mi.writes_nodup
  · intro j h
    rw [e5] at h ⊢
    exact mi.unwritten j h
  · intro w1 lc1 blk h w2 j hj
    rw [e2] at h
    rw [e5] at hj
    rcases update_pc_eq h with ⟨-, h1⟩ | ⟨-, h1⟩
    · injection h1 with h2 h3
      have := inv.claims_lt w2 _ (mi.writes_claim w2 j hj)
      omega
    · exact mi.fresh w1 lc1 blk h1 w2 j hj
  · intro w1 lc1 blk i e h w2 j hj
    rw [e2] at h
    rw [e5] at hj
    rcases update_pc_eq h with ⟨-, h1⟩ | ⟨-, h1⟩
    · exact PC.noConfusion h1
    · exact mi.below w1 lc1 blk i e h1 w2 j hj
  · intro j hj
    rw [e5, e1, e2]
    rcases mi.cover j hj with h | h | ⟨w2, lc2, h⟩ | ⟨w2, lc2, i, e, h, hi⟩
    · exact Or.inl h
    · rcases Nat.eq_or_lt_of_le h with h1 | h1
      · refine Or.inr (Or.inr (Or.inl ⟨w, lc, ?_⟩))
        rw [Function.update_same, h1]
      · exact Or.inr (Or.inl h1)
    · refine Or.inr (Or.inr (Or.inl ⟨w2, lc2, ?_⟩))
      rw [Function.update_noteq, h]
      rintro rfl
      rw [hpc] at h
      exact PC.noConfusion h
    · refine Or.inr (Or.inr (Or.inr ⟨w2, lc2, i, e, ?_, hi⟩))
      rw [Function.update_noteq, h]
      rintro rfl
      rw [hpc] at h
      exact PC.noConfusion h

/-- A step that leaves the array, the counter and the claims as they are. -/
theorem MInv_move [LinearOrder V] (p : Params) (A B C0 : Nat → V) (s s1 : FState V)
    (w : Nat) (v : PC) (mi : MInv p A B C0 s)
    (e1 : s1.current_block = s.current_block)
    (e2 : s1.pc = Function.update s.pc w v)
    (e3 : s1.claims = s.claims)
    (e5 : s1.mem = s.mem)
    (hfresh : ∀ lc blk, v = PC.claimed lc blk →
      ∀ w1 j, (w1, j) ∈ s.mem.writes → j / p.BLOCK_SIZE ≠ blk)
    (hbelow : ∀ lc blk i e, v = PC.inLoop lc blk i e →
      ∀ w1 j, (w1, j) ∈ s.mem.writes → j / p.BLOCK_SIZE = blk → j < i)
    (hcover1 : ∀ j lc, j < p.ARRAY_SIZE → s.pc w = PC.claimed lc (j / p.BLOCK_SIZE) →
      ∃ i e, v = PC.inLoop lc (j / p.BLOCK_SIZE) i e ∧ i ≤ j)
    (hcover2 : ∀ j lc i e, j < p.ARRAY_SIZE → s.pc w = PC.inLoop lc (j / p.BLOCK_SIZE) i e →
      i ≤ j → False) : MInv p A B C0 s1 := by
  refine ⟨?_, ?_, ?_, ?_, ?_, ?_, ?_, ?_⟩
  · intro w1 j h
    rw [e5] at h
    exact mi.writes_lt w1 j h
  · intro w1 j h
    rw [e5] at h
    rw [e3]
    exact mi.writes_claim w1 j h
  · intro w1 j h
    rw [e5] at h ⊢
    exact mi.writes_val w1 j h
  · rw [e5]
    exact mi.writes_nodup
  · intro j h
    rw [e5] at h ⊢
    exact mi.unwritten j h
  · intro w1 lc1 blk h w2 j hj
    rw [e2] at h
    rw [e5] at hj
    rcases update_pc_eq h with ⟨-, h1⟩ | ⟨-, h1⟩
    · exact hfresh lc1 blk h1 w2 j hj
    · exact mi.fresh w1 lc1 blk h1 w2 j hj
  · intro w1 lc1 blk i e h w2 j hj
    rw [e2] at h
    rw [e5] at hj
    rcases update_pc_eq h with ⟨-, h1⟩ | ⟨-, h1⟩
    · exact hbelow lc1 blk i e h1 w2 j hj
    · exact mi.below w1 lc1 blk i e h1 w2 j hj
  · intro j hj
    rw [e5, e1, e2]
    rcases mi.cover j hj with h | h | ⟨w2, lc2, h⟩ | ⟨w2, lc2, i, e, h, hi⟩
    · exact Or.inl h
    · exact Or.inr (Or.inl h)
    · by_cases hw2 : w2 = w
      · subst hw2
        obtain ⟨i, e, hv, hi⟩ := hcover1 j lc2 hj h
        refine Or.inr (Or.inr (Or.inr ⟨w2, lc2, i, e, ?_, hi⟩))
        rw [Function.update_same, hv]
      · refine Or.inr (Or.inr (Or.inl ⟨w2, lc2, ?_⟩))
        rw [Function.update_noteq hw2, h]
    · by_cases hw2 : w2 = w
      · subst hw2
        exact absurd hi (fun hi => hcover2 j lc2 i e hj h hi)
      · refine Or.inr (Or.inr (Or.inr ⟨w2, lc2, i, e, ?_, hi⟩))
        rw [Function.update_noteq hw2, h]

theorem MInv_store [LinearOrder V] (p : Params) (A B C0 : Nat → V) (hB : 0 < p.BLOCK_SIZE)
    (s s1 : FState V) (w lc blk i e : Nat) (inv : FInv p s) (mi : MInv p A B C0 s)
    (hpc : s.pc w = PC.inLoop lc blk i e) (hi : i < e)
    (e1 : s1.current_block = s.current_block)
    (e2 : s1.pc = Function.update s.pc w (PC.inLoop lc blk (i + 1) e))
    (e3 : s1.claims = s.claims)
    (e5 : s1.mem = s.mem.store w i (minElem (A i) (B i))) : MInv p A B C0 s1 := by
  have hwf := inv.loop_wf w lc blk i e hpc
  have hheld := inv.held_loop w lc blk i e hpc
  have hin : i < p.ARRAY_SIZE ∧ i / p.BLOCK_SIZE = blk :=
    (mem_block_iff p hB i blk).1 ⟨hwf.2.2.1, hwf.2.1 ▸ hi⟩
  have hmem : ∀ w1 j, (w1, j) ∈ s1.mem.writes →
      (w1 = w ∧ j = i) ∨ (w1, j) ∈ s.mem.writes := by
    intro w1 j h
    rw [e5] at h
    rcases List.mem_cons.1 h with h1 | h1
    · exact Or.inl ⟨(Prod.mk.inj h1).1, (Prod.mk.inj h1).2⟩
    · exact Or.inr h1
  have hother : ∀ w1 blk1, w1 ≠ w → (w1, blk1) ∈ s.claims → i / p.BLOCK_SIZE ≠ blk1 := by
    intro w1 blk1 hne hc heq
    rw [hin.2] at heq
    subst heq
    exact hne (inv.claim_unique hc hheld)
  refine ⟨?_, ?_, ?_, ?_, ?_, ?_, ?_, ?_⟩
  · intro w1 j h
    rcases hmem w1 j h with ⟨-, rfl⟩ | h1
    · exact hin.1
    · exact mi.writes_lt w1 j h1
  · intro w1 j h
    rw [e3]
    rcases hmem w1 j h with ⟨rfl, rfl⟩ | h1
    · rw [hin.2]
      exact hheld
    · exact mi.writes_claim w1 j h1
  · intro w1 j h
    rw [e5]
    show Function.update s.mem.C i _ j = _
    by_cases hj : j = i
    · subst hj
      rw [Function.update_same]
    · rw [Function.update_noteq hj]
      rcases hmem w1 j h with ⟨-, h0⟩ | h1
      · exact absurd h0 hj
      · exact mi.writes_val w1 j h1
  · rw [e5]
    show ((w, i) :: s.mem.writes |>.map Prod.snd).Nodup
    rw [List.map_cons, List.nodup_cons]
    refine ⟨?_, mi.writes_nodup⟩
    intro h
    obtain ⟨⟨w1, k⟩, h1, h2⟩ := List.mem_map.1 h
    simp only at h2
    rw [h2] at h1
    have := mi.below w lc blk i e hpc w1 i h1 hin.2
    omega
  · intro j h
    have hj : j ≠ i := by
      rintro rfl
      refine h w ?_
      rw [e5]
      exact List.mem_cons_self _ _
    rw [e5]
    show Function.update s.mem.C i _ j = _
    rw [Function.update_noteq hj]
    refine mi.unwritten j (fun w1 h1 => h w1 ?_)
    rw [e5]
    exact List.mem_cons_of_mem _ h1
  · intro w1 lc1 blk1 h w2 j hj
    rw [e2] at h
    rcases update_pc_eq h with ⟨-, h1⟩ | ⟨hne, h1⟩
    · exact PC.noConfusion h1
    · rcases hmem w2 j hj with ⟨-, rfl⟩ | h2
      · exact hother w1 blk1 hne (inv.held_claimed w1 lc1 blk1 h1)
      · exact mi.fresh w1 lc1 blk1 h1 w2 j h2
  · intro w1 lc1 blk1 i1 e1 h w2 j hj hjb
    rw [e2] at h
    rcases update_pc_eq h with ⟨-, h1⟩ | ⟨hne, h1⟩
    · injection h1 with h3 h4 h5 h6
      subst h4 h5
      rcases hmem w2 j hj with ⟨-, rfl⟩ | h2
      · exact Nat.lt_succ_self _
      · exact Nat.lt_succ_of_lt (mi.below w lc blk i e hpc w2 j h2 hjb)
    · rcases hmem w2 j hj with ⟨-, rfl⟩ | h2
      · exact absurd hjb (hother w1 blk1 hne (inv.held_loop w1 lc1 blk1 i1 e1 h1))
      · exact mi.below w1 lc1 blk1 i1 e1 h1 w2 j h2 hjb
  · intro j hj
    rw [e1, e2]
    rcases mi.cover j hj with ⟨w2, h⟩ | h | ⟨w2, lc2, h⟩ | ⟨w2, lc2, i2, ee, h, hi2⟩
    · refine Or.inl ⟨w2, ?_⟩
      rw [e5]
      exact List.mem_cons_of_mem _ h
    · exact Or.inr (Or.inl h)
    · refine Or.inr (Or.inr (Or.inl ⟨w2, lc2, ?_⟩))
      rw [Function.update_noteq, h]
      rintro rfl
      rw [hpc] at h
      exact PC.noConfusion h
    · by_cases hw2 : w2 = w
      · subst hw2
        rw [hpc] at h
        injection h with h3 h4 h5 h6
        rw [← h5] at hi2
        by_cases hji : j = i
        · refine Or.inl ⟨w2, ?_⟩
          rw [e5, hji]
          exact List.mem_cons_self _ _
        · refine Or.inr (Or.inr (Or.inr ⟨w2, lc, i + 1, e, ?_, by omega⟩))
          rw [Function.update_same, h4]
      · refine Or.inr (Or.inr (Or.inr ⟨w2, lc2, i2, ee, ?_, hi2⟩))
        rw [Function.update_noteq hw2, h]

/-- One step of a thread keeps the invariant on the output array and the stores. -/
theorem MInv_step [LinearOrder V] (p : Params) (A B C0 : Nat → V) (hB : 0 < p.BLOCK_SIZE)
    (s : FState V) (w : Nat) (inv : FInv p s) (mi : MInv p A B C0 s) :
    MInv p A B C0 (thread_farming p A B w s) := by
  refine step_cases p A B w s (MInv p A B C0) ?_ ?_ ?_ ?_ ?_ ?_
  · intro lc hpc
    exact MInv_claim p A B C0 s _ w lc inv mi hpc rfl rfl rfl rfl
  · intro lc blk hpc hex
    refine MInv_move p A B C0 s _ w PC.done mi rfl rfl rfl rfl ?_ ?_ ?_ ?_
    · intro _ _ h; exact PC.noConfusion h
    · intro _ _ _ _ h; exact PC.noConfusion h
    · intro j lc1 hj h
      rw [hpc] at h
      injection h with h1 h2
      have h3 : j / p.BLOCK_SIZE * p.BLOCK_SIZE ≤ j := Nat.div_mul_le_self j p.BLOCK_SIZE
      rw [← h2] at h3
      exact absurd hex (by omega)
    · intro j lc1 i e _ h
      rw [hpc] at h
      exact PC.noConfusion h
  · intro lc blk hpc hex
    refine MInv_move p A B C0 s _ w _ mi rfl rfl rfl rfl ?_ ?_ ?_ ?_
    · intro _ _ h; exact PC.noConfusion h
    · intro lc1 blk1 i e h w1 j hj hjb
      injection h with h1 h2 h3 h4
      rw [← h2] at hjb
      exact absurd hjb (mi.fresh w lc blk hpc w1 j hj)
    · intro j lc1 hj h
      rw [hpc] at h
      injection h with h1 h2
      refine ⟨blockStart p blk, blockEnd p blk, ?_, ?_⟩
      · rw [h1, h2]
      · rw [h2]
        exact Nat.div_mul_le_self j p.BLOCK_SIZE
    · intro j lc1 i e _ h
      rw [hpc] at h
      exact PC.noConfusion h
  · intro lc blk i e hpc hi
    exact MInv_store p A B C0 hB s _ w lc blk i e inv mi hpc hi rfl rfl rfl rfl
  · intro lc blk i e hpc hi
    have hwf := inv.loop_wf w lc blk i e hpc
    refine MInv_move p A B C0 s _ w _ mi rfl rfl rfl rfl ?_ ?_ ?_ ?_
    · intro _ _ h; exact PC.noConfusion h
    · intro _ _ _ _ h; exact PC.noConfusion h
    · intro j lc1 _ h
      rw [hpc] at h
      exact PC.noConfusion h
    · intro j lc1 i1 e1 hj h hij
      rw [hpc] at h
      injection h with h1 h2 h3 h4
      have h5 := (mem_block_iff p hB j blk).2 ⟨hj, h2.symm⟩
      have h6 := hwf.2.1
      omega
  · intro _
    exact mi

theorem sumTo_const (c : Nat) : ∀ n, sumTo (fun _ => c) n = n * c
  | 0 => by simp [sumTo]
  | n + 1 => by
    unfold sumTo
    rw [sumTo_const c n, Nat.succ_mul]

theorem FInv_start (p : Params) (C0 : Nat → V) : FInv p (trialStart C0) := by
  refine ⟨?_, ?_, ?_, ?_, ?_, ?_, ?_, ?_, ?_, ?_⟩
  · intro _ _; rfl
  · intro _ _ _ _ _ h; exact PC.noConfusion h
  · intro _ _ h; exact absurd h (List.not_mem_nil _)
  · exact List.nodup_nil
  · intro k hk; exact absurd hk (Nat.not_lt_zero k)
  · intro _ _ _ h; exact PC.noConfusion h
  · intro _ _ _ _ _ h; exact PC.noConfusion h
  · have h : sumTo (claimsMade (trialStart C0)) p.nb_threads = sumTo (fun _ => 0) p.nb_threads :=
      sumTo_congr _ (fun _ _ => rfl)
    rw [h, sumTo_const]
    rfl
  · have h : sumTo (failedClaims p (trialStart C0)) p.nb_threads =
        sumTo (fun _ => 0) p.nb_threads := sumTo_congr _ (fun _ _ => rfl)
    rw [h, sumTo_const]
    show _ = 0 - _
    omega
  · intro _ _ h; exact absurd h (List.not_mem_nil _)

theorem MInv_start [LinearOrder V] (p : Params) (A B C0 : Nat → V) :
    MInv p A B C0 (trialStart C0) := by
  refine ⟨?_, ?_, ?_, ?_, ?_, ?_, ?_, ?_⟩
  · intro _ _ h; exact absurd h (List.not_mem_nil _)
  · intro _ _ h; exact absurd h (List.not_mem_nil _)
  · intro _ _ h; exact absurd h (List.not_mem_nil _)
  · exact List.nodup_nil
  · intro _ _; rfl
  · intro _ _ _ h; exact PC.noConfusion h
  · intro _ _ _ _ _ h; exact PC.noConfusion h
  · intro j _
    exact Or.inr (Or.inl (Nat.zero_le _))

/-- The two invariants hold along every schedule. -/
theorem inv_run [LinearOrder V] (p : Params) (A B C0 : Nat → V) (hB : 0 < p.BLOCK_SIZE) :
    ∀ (sched : List Nat) (s : FState V), FInv p s → MInv p A B C0 s →
      FInv p (runSchedule p A B sched s) ∧ MInv p A B C0 (runSchedule p A B sched s) := by
  intro sched
  induction sched with
  | nil => intro s h1 h2; exact ⟨h1, h2⟩
  | cons w rest ih =>
    intro s h1 h2
    show FInv p (runSchedule p A B rest (farmStep p A B s w)) ∧
      MInv p A B C0 (runSchedule p A B rest (farmStep p A B s w))
    refine ih _ ?_ ?_
    · unfold farmStep
      split
      · next hw => exact FInv_step p A B hB s w hw h1
      · exact h1
    · unfold farmStep
      split
      · exact MInv_step p A B C0 hB s w h1 h2
      · exact h2

theorem inv_trial [LinearOrder V] (p : Params) (A B C0 : Nat → V) (hB : 0 < p.BLOCK_SIZE)
    (s : FState V) (h : FarmTrial p A B C0 s) :
    FInv p s ∧ MInv p A B C0 s ∧ AllDone p s := by
  obtain ⟨sched, h1, h2⟩ := h
  have := inv_run p A B C0 hB sched (trialStart C0) (FInv_start p C0) (MInv_start p A B C0)
  rw [h1] at this
  exact ⟨this.1, this.2, h2⟩

/-! ## Every farming trial can be finished -/

theorem failedClaims_le_one (p : Params) (s : FState V) (w : Nat) : failedClaims p s w ≤ 1 := by
  unfold failedClaims
  split
  · split <;> omega
  · exact le_refl _
  · exact Nat.zero_le _

/-- While a thread stands before the lock, the counter is below `total_blocks + nb_threads`. -/
theorem counter_lt (p : Params) (s : FState V) (inv : FInv p s) (w : Nat)
    (hw : w < p.nb_threads) (h0 : failedClaims p s w = 0) :
    s.current_block < total_blocks p + p.nb_threads := by
  have h := sumTo_update (f := failedClaims p s)
    (g := fun x => if x = w then 1 else failedClaims p s x) (w := w)
    (fun x hx => if_neg hx) p.nb_threads hw
  have h1 := sumTo_le (f := fun x => if x = w then 1 else failedClaims p s x) (c := 1)
    (fun x => by
      show (if x = w then 1 else failedClaims p s x) ≤ 1
      split
      · exact le_refl _
      · exact failedClaims_le_one p s x) p.nb_threads
  rw [h0] at h
  simp only [if_pos] at h
  have := inv.failed
  omega

theorem weight_update (p : Params) (s s1 : FState V) (w : Nat) (v : PC)
    (hpc : s1.pc = Function.update s.pc w v) (n : Nat) (hw : w < n) :
    sumTo (fun x => pcWeight p (s1.pc x)) n + pcWeight p (s.pc w) =
      sumTo (fun x => pcWeight p (s.pc x)) n + pcWeight p v := by
  have h := sumTo_update (f := fun x => pcWeight p (s.pc x))
    (g := fun x => pcWeight p (s1.pc x)) (w := w)
    (fun x hx => by
      show pcWeight p (s1.pc x) = pcWeight p (s.pc x)
      rw [hpc, Function.update_noteq hx]) n hw
  have h1 : pcWeight p (s1.pc w) = pcWeight p v := by rw [hpc, Function.update_same]
  simp only [h1] at h
  exact h

theorem blockEnd_sub_le (p : Params) (blk : Nat) :
    blockEnd p blk - blockStart p blk ≤ p.BLOCK_SIZE := by
  unfold blockEnd blockStart
  split <;> omega

theorem stepsLeft_move (p : Params) (s s1 : FState V) (w : Nat) (v : PC)
    (hw : w < p.nb_threads) (e1 : s1.current_block = s.current_block)
    (e2 : s1.pc = Function.update s.pc w v) (h : pcWeight p v < pcWeight p (s.pc w)) :
    stepsLeft p s1 < stepsLeft p s := by
  have h1 := weight_update p s s1 w v e2 p.nb_threads hw
  unfold stepsLeft
  rw [e1]
  omega

theorem stepsLeft_claim (p : Params) (s s1 : FState V) (w : Nat) (v : PC)
    (hw : w < p.nb_threads) (e1 : s1.current_block = s.current_block + 1)
    (e2 : s1.pc = Function.update s.pc w v)
    (hlt : s.current_block < total_blocks p + p.nb_threads)
    (h : pcWeight p v ≤ pcWeight p (s.pc w) + p.BLOCK_SIZE + 3) :
    stepsLeft p s1 < stepsLeft p s := by
  have h1 := weight_update p s s1 w v e2 p.nb_threads hw
  have hX : total_blocks p + p.nb_threads - s.current_block =
      (total_blocks p + p.nb_threads - (s.current_block + 1)) + 1 := by omega
  unfold stepsLeft
  rw [e1, hX, Nat.mul_succ]
  omega

/-- Every step of a thread that has not returned lowers `stepsLeft`. -/
theorem stepsLeft_step [LinearOrder V] (p : Params) (A B : Nat → V) (s : FState V)
    (inv : FInv p s) (w : Nat) (hw : w < p.nb_threads) (hnd : s.pc w ≠ PC.done) :
    stepsLeft p (thread_farming p A B w s) < stepsLeft p s := by
  refine step_cases p A B w s (fun s1 => stepsLeft p s1 < stepsLeft p s) ?_ ?_ ?_ ?_ ?_ ?_
  · intro lc hpc
    have hlt := counter_lt p s inv w hw (by simp [failedClaims, hpc])
    refine stepsLeft_claim p s _ w _ hw rfl rfl hlt ?_
    rw [hpc]
    simp [pcWeight]
  · intro lc blk hpc _
    refine stepsLeft_move p s _ w _ hw rfl rfl ?_
    rw [hpc]
    simp [pcWeight]
  · intro lc blk hpc _
    refine stepsLeft_move p s _ w _ hw rfl rfl ?_
    rw [hpc]
    have := blockEnd_sub_le p blk
    simp only [pcWeight]
    omega
  · intro lc blk i e hpc hi
    refine stepsLeft_move p s _ w _ hw rfl rfl ?_
    rw [hpc]
    simp only [pcWeight]
    omega
  · intro lc blk i e hpc hi
    refine stepsLeft_move p s _ w _ hw rfl rfl ?_
    rw [hpc]
    simp only [pcWeight]
    omega
  · intro h
    exact absurd h hnd

/-- From every state of a farming trial some schedule makes all threads return. -/
theorem can_finish [LinearOrder V] (p : Params) (A B : Nat → V) (hB : 0 < p.BLOCK_SIZE) :
    ∀ (n : Nat) (s : FState V), FInv p s → stepsLeft p s ≤ n →
      ∃ sched, AllDone p (runSchedule p A B sched s) := by
  intro n
  induction n with
  | zero =>
    intro s inv hn
    refine ⟨[], ?_⟩
    intro w hw
    by_contra hnd
    have := stepsLeft_step p A B s inv w hw hnd
    omega
  | succ n ih =>
    intro s inv hn
    by_cases hd : AllDone p s
    · exact ⟨[], hd⟩
    · unfold AllDone at hd
      push_neg at hd
      obtain ⟨w, hw, hnd⟩ := hd
      have hlt := stepsLeft_step p A B s inv w hw hnd
      obtain ⟨sched, hs⟩ := ih (thread_farming p A B w s) (FInv_step p A B hB s w hw inv)
        (by omega)
      refine ⟨w :: sched, ?_⟩
      show AllDone p (runSchedule p A B sched (farmStep p A B s w))
      unfold farmStep
      rw [if_pos hw]
      exact hs

/-- A farming trial can be run to its end, from any content of the output array. -/
theorem trial_exists [LinearOrder V] (p : Params) (A B C0 : Nat → V)
    (hB : 0 < p.BLOCK_SIZE) : ∃ s, FarmTrial p A B C0 s := by
  obtain ⟨sched, h⟩ := can_finish p A B hB _ (trialStart C0) (FInv_start p C0) (le_refl _)
  exact ⟨_, sched, rfl, h⟩

/-! ## The end of a farming trial -/

theorem minElem_eq_min [LinearOrder V] (a b : V) : minElem a b = min a b := by
  unfold minElem
  rw [min_def]
  by_cases h : a < b
  · rw [if_pos h, if_pos (le_of_lt h)]
  · rw [if_neg h]
    by_cases h1 : a ≤ b
    · rw [if_pos h1]
      exact le_antisymm (not_lt.1 h) h1
    · rw [if_neg h1]

theorem sumTo_succ_each (f : Nat → Nat) : ∀ n, sumTo (fun x => f x + 1) n = sumTo f n + n
  | 0 => rfl
  | n + 1 => by
    unfold sumTo
    rw [sumTo_succ_each f n]
    omega

theorem term_le_sumTo (f : Nat → Nat) : ∀ n w, w < n → f w ≤ sumTo f n
  | 0, w, h => absurd h (Nat.not_lt_zero w)
  | n + 1, w, h => by
    unfold sumTo
    rcases Nat.eq_or_lt_of_le (Nat.le_of_lt_succ h) with h1 | h1
    · rw [h1]
      omega
    · have := term_le_sumTo f n w h1
      omega

/-- At the end of a trial the counter has passed `total_blocks` by one for each thread. -/
theorem done_counter (p : Params) (s : FState V) (inv : FInv p s) (hd : AllDone p s) :
    s.current_block - total_blocks p = p.nb_threads := by
  have h : sumTo (failedClaims p s) p.nb_threads = sumTo (fun _ => 1) p.nb_threads :=
    sumTo_congr _ (fun x hx => by
      show failedClaims p s x = 1
      unfold failedClaims
      rw [hd x hx])
  rw [sumTo_const, Nat.mul_one] at h
  rw [← inv.failed, h]

/-- At the end of a trial the counts of `blocks_processed` add up to the counter less the
number of threads. -/
theorem done_made (p : Params) (s : FState V) (inv : FInv p s) (hd : AllDone p s) :
    sumTo s.blocks_processed p.nb_threads + p.nb_threads = s.current_block := by
  have h : sumTo (claimsMade s) p.nb_threads =
      sumTo (fun x => s.blocks_processed x + 1) p.nb_threads :=
    sumTo_congr _ (fun x hx => by
      show claimsMade s x = s.blocks_processed x + 1
      unfold claimsMade
      rw [hd x hx])
  rw [sumTo_succ_each] at h
  rw [← inv.made, h]

theorem done_not_claimed (p : Params) (s : FState V) (inv : FInv p s) (hd : AllDone p s)
    (w lc blk : Nat) : s.pc w ≠ PC.claimed lc blk := by
  intro h
  by_cases hw : w < p.nb_threads
  · rw [hd w hw] at h
    exact PC.noConfusion h
  · rw [inv.idle w (Nat.le_of_not_lt hw)] at h
    exact PC.noConfusion h

theorem done_not_inLoop (p : Params) (s : FState V) (inv : FInv p s) (hd : AllDone p s)
    (w lc blk i e : Nat) : s.pc w ≠ PC.inLoop lc blk i e := by
  intro h
  by_cases hw : w < p.nb_threads
  · rw [hd w hw] at h
    exact PC.noConfusion h
  · rw [inv.idle w (Nat.le_of_not_lt hw)] at h
    exact PC.noConfusion h

/-- At the end of a trial every index below `ARRAY_SIZE` has been stored. -/
theorem done_written [LinearOrder V] (p : Params) (A B C0 : Nat → V)
    (hB : 0 < p.BLOCK_SIZE) (hT : 0 < p.nb_threads) (s : FState V) (inv : FInv p s)
    (mi : MInv p A B C0 s) (hd : AllDone p s) (j : Nat) (hj : j < p.ARRAY_SIZE) :
    ∃ w, (w, j) ∈ s.mem.writes := by
  rcases mi.cover j hj with h | h | ⟨w, lc, h⟩ | ⟨w, lc, i, e, h, -⟩
  · exact h
  · have h1 := done_counter p s inv hd
    have h2 := div_lt_total p hB hj
    omega
  · exact absurd h (done_not_claimed p s inv hd w lc _)
  · exact absurd h (done_not_inLoop p s inv hd w lc _ i e)

theorem count_snd_pos {l : List (Nat × Nat)} {w j : Nat} (h : (w, j) ∈ l) :
    j ∈ l.map Prod.snd :=
  List.mem_map.2 ⟨(w, j), h, rfl⟩

theorem count_pair_eq_one : ∀ (l : List (Nat × Nat)) (w j : Nat),
    (l.map Prod.snd).Nodup → (w, j) ∈ l → l.count (w, j) = 1
  | [], _, _, _, h => absurd h (List.not_mem_nil _)
  | x :: l, w, j, hnd, h => by
    rw [List.map_cons, List.nodup_cons] at hnd
    rw [List.count_cons]
    rcases List.mem_cons.1 h with h1 | h1
    · subst h1
      have h2 : (w, j) ∉ l := fun h3 => hnd.1 (count_snd_pos h3)
      rw [List.count_eq_zero_of_not_mem h2]
      simp
    · have h2 : x ≠ (w, j) := by
        rintro rfl
        exact hnd.1 (count_snd_pos h1)
      rw [count_pair_eq_one l w j hnd.2 h1]
      simp [h2]

theorem storesBy_eq_one {m : Mem V} (hnd : (m.writes.map Prod.snd).Nodup) {w j : Nat}
    (h : (w, j) ∈ m.writes) : storesBy m w j = 1 :=
  count_pair_eq_one m.writes w j hnd h

theorem storesBy_pos_iff (m : Mem V) (w j : Nat) : 0 < storesBy m w j ↔ (w, j) ∈ m.writes :=
  List.count_pos_iff

/-! ## Claims on the static strategies and on the block ranges -/

theorem total_blocks_eq (p : Params) (hB : 0 < p.BLOCK_SIZE) :
    total_blocks p = if p.ARRAY_SIZE % p.BLOCK_SIZE = 0 then p.ARRAY_SIZE / p.BLOCK_SIZE
      else p.ARRAY_SIZE / p.BLOCK_SIZE + 1 := by
  have hq : p.ARRAY_SIZE / p.BLOCK_SIZE * p.BLOCK_SIZE + p.ARRAY_SIZE % p.BLOCK_SIZE =
      p.ARRAY_SIZE := Nat.div_add_mod' _ _
  have hr : p.ARRAY_SIZE % p.BLOCK_SIZE < p.BLOCK_SIZE := Nat.mod_lt _ hB
  unfold total_blocks
  split
  · refine Nat.div_eq_of_lt_le ?_ ?_
    · omega
    · rw [Nat.succ_mul]; omega
  · refine Nat.div_eq_of_lt_le ?_ ?_
    · rw [Nat.succ_mul]; omega
    · rw [Nat.succ_mul, Nat.succ_mul]; omega

theorem last_block_size (p : Params) (hN : 0 < p.ARRAY_SIZE) (hB : 0 < p.BLOCK_SIZE) :
    blockEnd p (total_blocks p - 1) - blockStart p (total_blocks p - 1) =
      if p.ARRAY_SIZE - p.BLOCK_SIZE * (p.ARRAY_SIZE / p.BLOCK_SIZE) ≠ 0
      then p.ARRAY_SIZE - p.BLOCK_SIZE * (p.ARRAY_SIZE / p.BLOCK_SIZE) else p.BLOCK_SIZE := by
  have hq : p.ARRAY_SIZE / p.BLOCK_SIZE * p.BLOCK_SIZE + p.ARRAY_SIZE % p.BLOCK_SIZE =
      p.ARRAY_SIZE := Nat.div_add_mod' _ _
  have hr : p.ARRAY_SIZE % p.BLOCK_SIZE < p.BLOCK_SIZE := Nat.mod_lt _ hB
  have hm : p.ARRAY_SIZE - p.BLOCK_SIZE * (p.ARRAY_SIZE / p.BLOCK_SIZE) =
      p.ARRAY_SIZE % p.BLOCK_SIZE := (Nat.mod_def _ _).symm
  rw [hm, total_blocks_eq p hB]
  by_cases h0 : p.ARRAY_SIZE % p.BLOCK_SIZE = 0
  · rw [if_pos h0, if_neg (not_not.2 h0)]
    have hpos : 0 < p.ARRAY_SIZE / p.BLOCK_SIZE := by
      rcases Nat.eq_zero_or_pos (p.ARRAY_SIZE / p.BLOCK_SIZE) with h | h
      · rw [h] at hq; omega
      · exact h
    obtain ⟨q, hq1⟩ : ∃ q, p.ARRAY_SIZE / p.BLOCK_SIZE = q + 1 := ⟨_, (Nat.succ_pred_eq_of_pos hpos).symm⟩
    rw [hq1, Nat.succ_mul] at hq
    rw [hq1, Nat.add_sub_cancel]
    unfold blockEnd blockStart
    split <;> omega
  · rw [if_neg h0, if_pos h0, Nat.add_sub_cancel]
    unfold blockEnd blockStart
    split <;> omega

theorem inner_block_size (p : Params) (hB : 0 < p.BLOCK_SIZE) (blk : Nat)
    (h : blk + 1 < total_blocks p) :
    blockEnd p blk - blockStart p blk = p.BLOCK_SIZE := by
  have h1 : ¬ (blk + 1) * p.BLOCK_SIZE ≥ p.ARRAY_SIZE := fun h2 => by
    have := (exit_iff p hB (blk + 1)).1 h2
    omega
  rw [Nat.succ_mul] at h1
  unfold blockEnd blockStart
  split <;> omega

theorem run_writes_lt [LinearOrder V] (p : Params) (A B C0 : Nat → V) (hB : 0 < p.BLOCK_SIZE)
    (sched : List Nat) (w i : Nat)
    (h : (w, i) ∈ (runSchedule p A B sched (trialStart C0)).mem.writes) : i < p.ARRAY_SIZE :=
  (inv_run p A B C0 hB sched _ (FInv_start p C0) (MInv_start p A B C0)).2.writes_lt w i h

/-- C2: run by a thread `id < nb_threads`, `thread_cyclic` returns, having stored once
at each index `i < ARRAY_SIZE` with `i % nb_threads = id` and at no other index; the
other threads' stores are as they were, and with `ARRAY_SIZE ≤ id` nothing changes. -/
theorem C2_cyclic_indices [LinearOrder V] (p : Params) (A B : Nat → V) (fuel id : Nat)
    (m : Mem V) (hT : 1 ≤ p.nb_threads) (hid : id < p.nb_threads)
    (hf : p.ARRAY_SIZE < fuel) :
    ∃ m1, thread_cyclic p A B fuel id m = some m1 ∧
      (∀ i, storesBy m1 id i =
        storesBy m id i + if i < p.ARRAY_SIZE ∧ i % p.nb_threads = id then 1 else 0) ∧
      (∀ w i, w ≠ id → storesBy m1 w i = storesBy m w i) ∧
      (∀ i, m1.C i =
        if i < p.ARRAY_SIZE ∧ i % p.nb_threads = id then minElem (A i) (B i) else m.C i) ∧
      (p.ARRAY_SIZE ≤ id → m1 = m) := by
  obtain ⟨m1, h1, h2⟩ := thread_cyclic_effect p A B fuel id hT hf m
  have hS : ∀ w j, (w = id ∧ j < p.ARRAY_SIZE ∧ id ≤ j ∧
      j % p.nb_threads = id % p.nb_threads) ↔
      (w = id ∧ j < p.ARRAY_SIZE ∧ j % p.nb_threads = id) := by
    intro w j
    rw [Nat.mod_eq_of_lt hid]
    constructor
    · rintro ⟨h3, h4, -, h5⟩
      exact ⟨h3, h4, h5⟩
    · rintro ⟨h3, h4, h5⟩
      exact ⟨h3, h4, h5 ▸ Nat.mod_le _ _, h5⟩
  have h3 := h2.congr hS
  refine ⟨m1, h1, ?_, ?_, ?_, ?_⟩
  · intro i
    by_cases hi : i < p.ARRAY_SIZE ∧ i % p.nb_threads = id
    · rw [if_pos hi]
      exact h3.once id i ⟨rfl, hi⟩
    · rw [if_neg hi]
      exact h3.other id i (fun h => hi h.2)
  · intro w i hw
    exact h3.other w i (fun h => hw h.1)
  · intro i
    by_cases hi : i < p.ARRAY_SIZE ∧ i % p.nb_threads = id
    · rw [if_pos hi]
      exact h3.hit id i ⟨rfl, hi⟩
    · rw [if_neg hi]
      exact h3.miss i (fun w h => hi h.2)
  · intro hge
    have h4 : thread_cyclic p A B fuel id m = some m := by
      unfold thread_cyclic
      obtain ⟨f, rfl⟩ : ∃ f, fuel = f + 1 := ⟨fuel - 1, by omega⟩
      unfold cyclicLoop
      rw [if_neg (by omega)]
    rw [h4] at h1
    exact (Option.some.inj h1).symm


theorem C2_witness :
    (∃ m1, thread_cyclic scenario (init_arrays scenario).1 (init_arrays scenario).2 9 1
        ⟨fun _ => 0, []⟩ = some m1 ∧
      ∀ i, storesBy m1 1 i = 0 + if i < 8 ∧ i % 2 = 1 then 1 else 0) ∧
    (thread_cyclic scenario (init_arrays scenario).1 (init_arrays scenario).2 9 1
        ⟨fun _ => 0, []⟩).map Mem.writes = some [(1, 7), (1, 5), (1, 3), (1, 1)] := by
  refine ⟨?_, by decide⟩
  obtain ⟨m1, h1, h2, -⟩ := C2_cyclic_indices scenario (init_arrays scenario).1
    (init_arrays scenario).2 9 1 ⟨fun _ => 0, []⟩ (by decide) (by decide) (by decide)
  exact ⟨m1, h1, h2⟩

theorem storesBy_nil (C0 : Nat → V) (w i : Nat) : storesBy (⟨C0, []⟩ : Mem V) w i = 0 := rfl

/-- What an effect from a memory without stores says of a trial whose index `j` belongs
to the thread `owner j`. -/
theorem partition_of_effect [LinearOrder V] (A B C0 : Nat → V) (N T : Nat)
    (owner : Nat → Nat) (hown : ∀ j, owner j < T) (m1 : Mem V)
    (h : Effect A B (fun w j => j < N ∧ owner j = w) ⟨C0, []⟩ m1) :
    (∀ w i, storesBy m1 w i = if i < N ∧ owner i = w then 1 else 0) ∧
    (∀ i, i < N → ∃ w, w < T ∧ storesBy m1 w i = 1 ∧
      ∀ w1, 0 < storesBy m1 w1 i → w1 = w) ∧
    (∀ w i, 0 < storesBy m1 w i → w < T ∧ i < N) := by
  have h1 : ∀ w i, storesBy m1 w i = if i < N ∧ owner i = w then 1 else 0 := by
    intro w i
    by_cases hi : i < N ∧ owner i = w
    · rw [if_pos hi, h.once w i hi, storesBy_nil]
    · rw [if_neg hi, h.other w i hi, storesBy_nil]
  refine ⟨h1, ?_, ?_⟩
  · intro i hi
    refine ⟨owner i, hown i, ?_, ?_⟩
    · rw [h1, if_pos ⟨hi, rfl⟩]
    · intro w1 hw1
      rw [h1] at hw1
      by_cases h2 : i < N ∧ owner i = w1
      · exact h2.2.symm
      · rw [if_neg h2] at hw1
        exact absurd hw1 (Nat.lt_irrefl 0)
  · intro w i hw
    rw [h1] at hw
    by_cases h2 : i < N ∧ owner i = w
    · exact ⟨h2.2 ▸ hown i, h2.1⟩
    · rw [if_neg h2] at hw
      exact absurd hw (Nat.lt_irrefl 0)

theorem blocks_of_thread (p : Params) (hB : 0 < p.BLOCK_SIZE) (w i : Nat)
    (hw : w < p.nb_threads) :
    (i < p.ARRAY_SIZE ∧ (i / p.BLOCK_SIZE) % p.nb_threads = w) ↔
      ∃ k, w + k * p.nb_threads < total_blocks p ∧
        blockStart p (w + k * p.nb_threads) ≤ i ∧ i < blockEnd p (w + k * p.nb_threads) := by
  constructor
  · rintro ⟨h1, h2⟩
    refine ⟨(i / p.BLOCK_SIZE) / p.nb_threads, ?_⟩
    have h3 : w + (i / p.BLOCK_SIZE) / p.nb_threads * p.nb_threads = i / p.BLOCK_SIZE := by
      rw [← h2, Nat.mul_comm]
      exact Nat.mod_add_div _ _
    rw [h3]
    exact ⟨div_lt_total p hB h1, (mem_block_iff p hB i _).2 ⟨h1, rfl⟩⟩
  · rintro ⟨k, -, h2, h3⟩
    have h4 := (mem_block_iff p hB i _).1 ⟨h2, h3⟩
    refine ⟨h4.1, ?_⟩
    rw [h4.2, Nat.add_mul_mod_self_right, Nat.mod_eq_of_lt hw]

theorem storesAt_eq_one {m : Mem V} (hnd : (m.writes.map Prod.snd).Nodup) {w j : Nat}
    (h : (w, j) ∈ m.writes) : storesAt m j = 1 :=
  List.count_eq_one_of_mem hnd (count_snd_pos h)

theorem static_twice [LinearOrder V] (A B C0 D0 : Nat → V) (N : Nat)
    (S : Nat → Nat → Prop) (hS : ∀ j, j < N ↔ ∃ w, S w j)
    (run : List Nat → Mem V → Option (Mem V)) (Ord : List Nat → Prop)
    (hrun : ∀ order m, Ord order → ∃ m1, run order m = some m1 ∧ Effect A B S m m1)
    (o1 o2 o3 : List Nat) (h1 : Ord o1) (h2 : Ord o2) (h3 : Ord o3) :
    ∃ m1 m2 m3, run o1 ⟨C0, []⟩ = some m1 ∧ run o2 ⟨m1.C, []⟩ = some m2 ∧
      run o3 ⟨D0, []⟩ = some m3 ∧ m2.C = m1.C ∧ ∀ i, i < N → m3.C i = m1.C i := by
  obtain ⟨m1, e1, f1⟩ := hrun o1 ⟨C0, []⟩ h1
  obtain ⟨m2, e2, f2⟩ := hrun o2 ⟨m1.C, []⟩ h2
  obtain ⟨m3, e3, f3⟩ := hrun o3 ⟨D0, []⟩ h3
  refine ⟨m1, m2, m3, e1, e2, e3, ?_, ?_⟩
  · funext i
    by_cases hi : i < N
    · obtain ⟨w, hw⟩ := (hS i).1 hi
      rw [f2.hit w i hw, f1.hit w i hw]
    · exact f2.miss i (fun w hw => hi ((hS i).2 ⟨w, hw⟩))
  · intro i hi
    obtain ⟨w, hw⟩ := (hS i).1 hi
    rw [f3.hit w i hw, f1.hit w i hw]

theorem scan_succ (n : Nat) (blocks : Nat → Int) :
    loadBalanceScan (n + 1) blocks = scanStep (loadBalanceScan n blocks) (blocks n) := by
  unfold loadBalanceScan
  rw [List.range_succ, List.foldl_append]
  rfl

/-- The scan of `main` over `n` counts that are not negative. -/
theorem scan_spec (blocks : Nat → Int) :
    ∀ n, (∀ w, w < n → 0 ≤ blocks w) →
      (n = 0 ∧ loadBalanceScan n blocks = (-1, -1)) ∨
      (0 < n ∧ (∃ w, w < n ∧ blocks w = (loadBalanceScan n blocks).1) ∧
        (∀ w, w < n → (loadBalanceScan n blocks).1 ≤ blocks w) ∧
        (∃ w, w < n ∧ blocks w = (loadBalanceScan n blocks).2) ∧
        (∀ w, w < n → blocks w ≤ (loadBalanceScan n blocks).2)) := by
  intro n
  induction n with
  | zero => intro _; exact Or.inl ⟨rfl, rfl⟩
  | succ n ih =>
    intro hpos
    right
    refine ⟨Nat.succ_pos n, ?_⟩
    rw [scan_succ]
    have hn := hpos n (Nat.lt_succ_self n)
    rcases ih (fun w hw => hpos w (Nat.lt_succ_of_lt hw)) with ⟨h0, hr⟩ | ⟨-, ⟨a, ha, ha1⟩, hmin, ⟨b, hb, hb1⟩, hmax⟩
    · subst h0
      rw [hr]
      refine ⟨⟨0, Nat.zero_lt_one, ?_⟩, ?_, ⟨0, Nat.zero_lt_one, ?_⟩, ?_⟩
      · simp [scanStep]
      · intro w hw
        have : w = 0 := by omega
        subst this
        simp [scanStep]
      · simp [scanStep]
      · intro w hw
        have : w = 0 := by omega
        subst this
        simp [scanStep]
    · have h1 : (loadBalanceScan n blocks).1 ≠ -1 := by
        have := hpos a (Nat.lt_succ_of_lt ha)
        omega
      have h2 : (loadBalanceScan n blocks).2 ≠ -1 := by
        have := hpos b (Nat.lt_succ_of_lt hb)
        omega
      unfold scanStep
      simp only [h1, h2, false_or]
      refine ⟨?_, ?_, ?_, ?_⟩
      · split
        · exact ⟨n, Nat.lt_succ_self n, rfl⟩
        · exact ⟨a, Nat.lt_succ_of_lt ha, ha1⟩
      · intro w hw
        rcases Nat.eq_or_lt_of_le (Nat.le_of_lt_succ hw) with h | h
        · subst h
          split <;> omega
        · have := hmin w h
          split <;> omega
      · split
        · exact ⟨n, Nat.lt_succ_self n, rfl⟩
        · exact ⟨b, Nat.lt_succ_of_lt hb, hb1⟩
      · intro w hw
        rcases Nat.eq_or_lt_of_le (Nat.le_of_lt_succ hw) with h | h
        · subst h
          split <;> omega
        · have := hmax w h
          split <;> omega

theorem done_sum (p : Params) (s : FState V) (inv : FInv p s) (hd : AllDone p s)
    (hT : 0 < p.nb_threads) :
    sumTo s.blocks_processed p.nb_threads = total_blocks p := by
  have h1 := done_counter p s inv hd
  have h2 := done_made p s inv hd
  omega

/-- The counter never passes `total_blocks + nb_threads`. -/
theorem counter_le (p : Params) (s : FState V) (inv : FInv p s) :
    s.current_block ≤ total_blocks p + p.nb_threads := by
  have h := sumTo_le (failedClaims_le_one p s) p.nb_threads
  have := inv.failed
  omega

/-- Along every schedule of a farming trial the values of `current_block`, of
`blk * BLOCK_SIZE` and of `start + BLOCK_SIZE` stay within `INT_MAX` when `intRange`
holds, so that the unbounded integers of the model are the `int`s of the source. -/
theorem farming_in_int_range [LinearOrder V] (p : Params) (A B C0 : Nat → V)
    (hB : 0 < p.BLOCK_SIZE) (hr : intRange p) (sched : List Nat) :
    (runSchedule p A B sched (trialStart C0)).current_block ≤ INT_MAX ∧
    ∀ w lc blk, (runSchedule p A B sched (trialStart C0)).pc w = PC.claimed lc blk →
      blk * p.BLOCK_SIZE + p.BLOCK_SIZE ≤ INT_MAX := by
  have inv := (inv_run p A B C0 hB sched _ (FInv_start p C0) (MInv_start p A B C0)).1
  have hcb := counter_le p _ inv
  have hmul : total_blocks p + p.nb_threads ≤ (total_blocks p + p.nb_threads) * p.BLOCK_SIZE :=
    Nat.le_mul_of_pos_right _ hB
  refine ⟨by have := hr.2; omega, ?_⟩
  intro w lc blk h
  have h1 := inv.claims_lt w blk (inv.held_claimed w lc blk h)
  have h2 : (blk + 1) * p.BLOCK_SIZE ≤ (total_blocks p + p.nb_threads) * p.BLOCK_SIZE :=
    Nat.mul_le_mul_right _ (by omega)
  rw [Nat.succ_mul] at h2
  have := hr.2
  omega

/-- In `thread_block` the values of `blk + nb_threads` and of `start + BLOCK_SIZE` stay
within `INT_MAX` when `intRange` holds. -/
theorem block_in_int_range (p : Params) (hB : 0 < p.BLOCK_SIZE) (hr : intRange p)
    (blk : Nat) (hblk : blk < total_blocks p) :
    blk + p.nb_threads ≤ INT_MAX ∧ blockStart p blk + p.BLOCK_SIZE ≤ INT_MAX := by
  have hmul : total_blocks p + p.nb_threads ≤ (total_blocks p + p.nb_threads) * p.BLOCK_SIZE :=
    Nat.le_mul_of_pos_right _ hB
  have h2 : (blk + 1) * p.BLOCK_SIZE ≤ (total_blocks p + p.nb_threads) * p.BLOCK_SIZE :=
    Nat.mul_le_mul_right _ (by omega)
  rw [Nat.succ_mul] at h2
  have := hr.2
  unfold blockStart
  constructor <;> omega

/-- With the constants of the source file, `intRange` holds up to 999746 threads. -/
theorem shipped_intRange (T : Nat) (hT : T ≤ 999746) : intRange (shipped T) := by
  have h : (100000000 + 2048 - 1) / 2048 = 48829 := by decide
  unfold intRange total_blocks shipped INT_MAX
  simp only [h]
  omega

end MinArray
